import Mathlib

/-!
Shallow embedding of `src/index.ts` (a single-page snapshot/optimisation tool)
together with proofs about the claims of its specification.

Conventions of the embedding:
* JavaScript strings are modelled as `String`/`List Char`; all character-level
  work is done on `List Char` and wrapped into `String` at the API boundary.
* JavaScript numbers are modelled exactly: integers as `Int`/`Nat`, and
  floating point values as exact rationals (`ℚ`).  The special values
  `NaN`/`Infinity`/`-Infinity` that matter for the size report are modelled by
  the dedicated type `JSNum`.  Double rounding and the exponent notation that
  JavaScript uses when printing numbers of extreme magnitude are not modelled;
  no claim in scope depends on them.
* Fallible code is modelled with `Except`/`Option`.
* External collaborators (the rendering engine's query capability, the mime
  table, the file system, the compressors) are passed in as function
  parameters, mirroring the spec's "external collaborators" scoping.
-/

namespace F1Opt

/- Batteries marks the arithmetic of `Rat` irreducible for performance; the
concrete evaluations below (`rfl`/`decide` on parsed srcset descriptors) need
it to unfold. -/
attribute [local semireducible] Rat.add Rat.sub Rat.mul Rat.inv Rat.ofScientific

/-! ## JavaScript string primitives -/

instance {ε α : Type} [DecidableEq ε] [DecidableEq α] :
    DecidableEq (Except ε α) := fun x y =>
  match x, y with
  | .error a, .error b =>
    if h : a = b then .isTrue (by rw [h])
    else .isFalse (by intro hc; injection hc with h'; exact h h')
  | .ok a, .ok b =>
    if h : a = b then .isTrue (by rw [h])
    else .isFalse (by intro hc; injection hc with h'; exact h h')
  | .error _, .ok _ => .isFalse (fun hc => Except.noConfusion hc)
  | .ok _, .error _ => .isFalse (fun hc => Except.noConfusion hc)

/-- Whitespace class used by the source's regular expressions (`\s`), restricted
to the ASCII whitespace characters; exotic Unicode space code points are not
modelled (no claim depends on them). -/
def isWs (c : Char) : Bool :=
  c = ' ' || c = '\t' || c = '\n' || c = '\r' || c = '\x0b' || c = '\x0c'

/-- Model of `String.prototype.trim` on character lists. -/
def trimChars (cs : List Char) : List Char :=
  ((cs.dropWhile isWs).reverse.dropWhile isWs).reverse

/-- Is the first character of the list a whitespace character? -/
def headIsWs : List Char → Bool
  | c :: _ => isWs c
  | [] => false

/-- State machine for `string.split(/\s+/)`: the state is `some acc` while
accumulating a field (in reverse) and `none` while inside a separator
whitespace run. -/
def jsSplitWsAux : Option (List Char) → List Char → List (List Char)
  | none, [] => [[]]
  | some acc, [] => [acc.reverse]
  | none, c :: rest =>
    if isWs c then jsSplitWsAux none rest
    else jsSplitWsAux (some [c]) rest
  | some acc, c :: rest =>
    if isWs c then acc.reverse :: jsSplitWsAux none rest
    else jsSplitWsAux (some (c :: acc)) rest

/-- Model of `string.split(/\s+/)` from `parseSrcset`: cuts at every maximal
nonempty whitespace run; like JavaScript, a leading (resp. trailing)
whitespace run produces a leading (resp. trailing) empty field, and splitting
the empty string yields `[""]`. -/
def jsSplitWs (cs : List Char) : List (List Char) :=
  jsSplitWsAux (some []) cs

/-- State machine for `string.split(/,\s+/)`: the state is `some acc` while
accumulating a field (in reverse) and `none` while greedily consuming the
whitespace run of a separator match. -/
def jsSplitCWAux : Option (List Char) → List Char → List (List Char)
  | none, [] => [[]]
  | some acc, [] => [acc.reverse]
  | none, c :: rest =>
    if isWs c then jsSplitCWAux none rest
    else if c = ',' && headIsWs rest then [] :: jsSplitCWAux none rest
    else jsSplitCWAux (some [c]) rest
  | some acc, c :: rest =>
    if c = ',' && headIsWs rest then acc.reverse :: jsSplitCWAux none rest
    else jsSplitCWAux (some (c :: acc)) rest

/-- Model of `string.split(/,\s+/)` from `parseSrcset`: cuts at every comma
that is immediately followed by at least one whitespace character, greedily
consuming the whitespace run.  A comma NOT followed by whitespace does not
split, exactly as with the source's regular expression. -/
def jsSplitCW (cs : List Char) : List (List Char) :=
  jsSplitCWAux (some []) cs

/-! ## Digits and decimal rendering -/

/-- Decimal digit character class (`\d`). -/
def isDig (c : Char) : Bool :=
  48 ≤ c.toNat && c.toNat ≤ 57

/-- The decimal digit character for a value `0`–`9`. -/
def digitChar : Nat → Char
  | 0 => '0' | 1 => '1' | 2 => '2' | 3 => '3' | 4 => '4'
  | 5 => '5' | 6 => '6' | 7 => '7' | 8 => '8' | _ => '9'

/-- Numeric value of a digit character. -/
def dval (c : Char) : Nat := c.toNat - 48

/-- Value of a big-endian digit string, as read positionally. -/
def digitsVal (cs : List Char) : Nat :=
  cs.foldl (fun a c => a * 10 + dval c) 0

/-- Big-endian decimal digits of `n`, with explicit fuel (the fuel is always
instantiated with `n` itself, which suffices). -/
def natDigitsAux : Nat → Nat → List Char
  | 0, _ => []
  | fuel + 1, n =>
    if n = 0 then []
    else natDigitsAux fuel (n / 10) ++ [digitChar (n % 10)]

/-- Big-endian decimal digits of a positive natural (empty for `0`). -/
def natDigits (n : Nat) : List Char := natDigitsAux n n

/-- Decimal rendering of a natural number, character-list level. -/
def natChars (n : Nat) : List Char :=
  if n = 0 then ['0'] else natDigits n

/-- Decimal rendering of an integer, character-list level; models the template
interpolation `${n}` of the source for integral values `n` with
`n.natAbs < 2 ^ 53`: those doubles are exact and `ToString` prints them in
full decimal (exponent notation starts only at `1e21`).  At and above `1e21`
the program prints e.g. `1e21` as `"1e+21"` instead, which this function
does not model; the amended claim C1 therefore stays below the `2 ^ 53`
bound, and the amendment records the program's behaviour beyond it. -/
def intToChars (i : Int) : List Char :=
  if i < 0 then '-' :: natChars i.natAbs else natChars i.natAbs

/-! ## Model of `Number.parseFloat` and of number printing -/

/-- Splits off a leading run of decimal digits. -/
def takeDigits (cs : List Char) : List Char × List Char :=
  (cs.takeWhile isDig, cs.dropWhile isDig)

/-- Value of a decimal literal with integer digits `ip` and fraction digits
`fp`. -/
def decValue (ip fp : List Char) : ℚ :=
  (digitsVal ip : ℚ) + (digitsVal fp : ℚ) / 10 ^ fp.length

/-- Exponent multiplier of `parseFloat`: an `e`/`E` followed by an optional
sign and a nonempty digit run multiplies the mantissa by a power of ten;
anything else contributes factor one (JavaScript ignores a dangling `e`). -/
def expMul (cs : List Char) : ℚ :=
  match cs with
  | 'e' :: rest | 'E' :: rest =>
    match rest with
    | '-' :: ds =>
      let e := (ds.takeWhile isDig)
      if e.isEmpty then 1 else (10 : ℚ) ^ (-(digitsVal e : ℤ))
    | '+' :: ds =>
      let e := (ds.takeWhile isDig)
      if e.isEmpty then 1 else (10 : ℚ) ^ (digitsVal e)
    | ds =>
      let e := (ds.takeWhile isDig)
      if e.isEmpty then 1 else (10 : ℚ) ^ (digitsVal e)
  | _ => 1

/-- Unsigned part of `Number.parseFloat`: longest decimal-literal prefix
(`digits [. digits] [exp]`, or `. digits [exp]`); `none` models `NaN`. -/
def jsParseFloatCore (cs : List Char) : Option ℚ :=
  let ip := cs.takeWhile isDig
  let r1 := cs.dropWhile isDig
  let fr : List Char × List Char :=
    match r1 with
    | c :: rest => if c = '.' then takeDigits rest else ([], r1)
    | [] => ([], r1)
  if ip.isEmpty && fr.1.isEmpty then none
  else some (decValue ip fr.1 * expMul fr.2)

/-- The value domain of `Number.parseFloat` at the source's call sites: a
parsed value is either an `Infinity` literal (with optional sign) or a
finite value; `NaN` is `none` at the call sites.  Finite values are exact
rationals: double-precision rounding is not modelled, and the amended
claim C1 is stated on the numeric domain where that is exact (see
`SafeCand`). -/
inductive PFloat where
  | inf
  | negInf
  | fin (q : ℚ)
deriving DecidableEq, Repr

/-- The source's test `floatValue <= 0` on a `parseFloat` result. -/
def pfNonpos : PFloat → Bool
  | .inf => false
  | .negInf => true
  | .fin q => decide (q ≤ 0)

/-- Model of `Number.parseFloat`: skips leading whitespace, honours one sign
character, then parses the `Infinity` literal or the longest decimal-literal
prefix (trailing garbage is ignored in both cases); `none` models `NaN`. -/
def jsParseFloat (s : String) : Option PFloat :=
  match s.toList.dropWhile isWs with
  | [] => none
  | c :: rest =>
    if c = '-' then
      if rest.take 8 = "Infinity".toList then some .negInf
      else (jsParseFloatCore rest).map (fun q => .fin (-q))
    else if c = '+' then
      if rest.take 8 = "Infinity".toList then some .inf
      else (jsParseFloatCore rest).map .fin
    else
      if (c :: rest).take 8 = "Infinity".toList then some .inf
      else (jsParseFloatCore (c :: rest)).map .fin

/-- Character-level test for the source's `integerRegex`, `/^-?\d+$/`. -/
def isIntegerString (cs : List Char) : Bool :=
  match cs with
  | [] => false
  | c :: rest =>
    if c = '-' then !rest.isEmpty && rest.all isDig
    else isDig c && rest.all isDig

/-- Model of `Number.parseInt(value, 10)`, adequate on the strings the source
applies it to (those matching `integerRegex`; on other strings the source
discards the result). -/
def jsParseIntDec (cs : List Char) : Int :=
  match cs with
  | [] => 0
  | c :: rest =>
    if c = '-' then -(digitsVal (rest.takeWhile isDig) : Int)
    else (digitsVal ((c :: rest).takeWhile isDig) : Int)

/-- Smallest exponent `k ≤ q.den` such that `q * 10 ^ k` is an integer, when
one exists (it does exactly when `q` has a decimal denominator). -/
def decExp (q : ℚ) : Option Nat :=
  (List.range (q.den + 1)).find? (fun k => (q * 10 ^ k).den = 1)

/-- Decimal rendering of a rational with decimal denominator, character-list
level: models JavaScript number-to-string conversion exactly for the values
the amended claim C1 ranges over (see `SafeCand`) — a decimal with at most
15 significant digits in `[1e-6, 1e21)` parses to a double whose shortest
round-trip representation is its own canonical decimal, and `ToString`
prints that decimal in plain notation, which is what this computes.  Below
`1e-6` and at `1e21` the program switches to exponent notation (`"1e-7"`,
`"1e+21"`), which this function does not model: the round trip then emits a
syntactically invalid token, which the C1 amendment records.  Rationals with
non-decimal denominator cannot reach this function from the modelled
source and render as a fallback. -/
def renderQ (q : ℚ) : List Char :=
  match decExp q with
  | none => ['N', 'a', 'N']
  | some k =>
    let m : Int := (q * 10 ^ k).num
    if k = 0 then intToChars m
    else
      let ds := natDigits m.natAbs
      let padded := List.replicate (k + 1 - ds.length) '0' ++ ds
      (if m < 0 then ['-'] else [])
        ++ padded.take (padded.length - k) ++ '.' :: padded.drop (padded.length - k)

/-! ## The Srcset Codec (`parseSrcset` / `stringifySrcset`) -/

/-- Model of the source's `Result` record: `{ url?: string; width?: number;
density?: number }`.  The `url` field is always assigned by `parseSrcset`
(possibly to the empty string); an empty URL is exactly what the source's
falsy test `!element.url` detects, so `url` is modelled as a plain `String`. -/
structure Candidate where
  url : String
  width : Option Int := none
  density : Option PFloat := none
deriving DecidableEq, Repr

/-- The error taxonomy of the codec, one constructor per `throw` site of the
source. -/
inductive SrcsetError where
  /-- `Width descriptor must be greater than zero` -/
  | widthNotPositive
  /-- `Pixel density descriptor must be greater than zero` -/
  | densityNotPositive
  /-- `Invalid srcset descriptor: ${token}` -/
  | invalidDescriptor (token : String)
  /-- `Image candidate string cannot have both width descriptor and pixel
  density descriptor` -/
  | conflictingDescriptors
  /-- `URL is required` -/
  | missingUrl
deriving DecidableEq, Repr

/-- The spec's `InvalidDescriptor` class: the spec files the two
non-positive-value errors under `InvalidDescriptor` as well ("integer,
value > 0, else fails with InvalidDescriptor"). -/
def isInvalidDescriptorClass : SrcsetError → Bool
  | .widthNotPositive | .densityNotPositive | .invalidDescriptor _ => true
  | _ => false

/-- Truthiness of the optional `width` field (`result.width`). -/
def truthyW : Option Int → Bool
  | none => false
  | some w => w != 0

/-- Truthiness of the optional `density` field (`result.density`): a stored
infinity is truthy, a finite value is truthy unless it is zero. -/
def truthyD : Option PFloat → Bool
  | none => false
  | some (.fin q) => q != 0
  | some _ => true

/-- One non-first token of a candidate, mirroring the body of the source's
`forEach` callback: slice off the last character, test the `w` branch (strict
integer regex), then the `x` branch (`parseFloat` not NaN), then throw; after
a successful branch, throw if both descriptors are now (truthily) present. -/
def parseDescriptor (c : Candidate) (tok : List Char) : Except SrcsetError Candidate :=
  let value := tok.dropLast
  let step : Except SrcsetError Candidate :=
    if tok.getLast? = some 'w' && isIntegerString value then
      let n := jsParseIntDec value
      if n ≤ 0 then .error .widthNotPositive
      else .ok { c with width := some n }
    else if tok.getLast? = some 'x' then
      match jsParseFloat (String.mk value) with
      | none => .error (.invalidDescriptor (String.mk tok))
      | some v =>
        if pfNonpos v then .error .densityNotPositive
        else .ok { c with density := some v }
    else .error (.invalidDescriptor (String.mk tok))
  match step with
  | .error e => .error e
  | .ok c' =>
    if truthyW c'.width && truthyD c'.density then .error .conflictingDescriptors
    else .ok c'

/-- Folds `parseDescriptor` over the non-first tokens, left to right, stopping
at the first thrown error (exactly the `forEach` evaluation order). -/
def parseDescriptors (c : Candidate) : List (List Char) → Except SrcsetError Candidate
  | [] => .ok c
  | tok :: rest =>
    match parseDescriptor c tok with
    | .error e => .error e
    | .ok c' => parseDescriptors c' rest

/-- Error-propagating map, the evaluation order of `Array.prototype.map` with
a throwing callback: the callback runs left to right and the first exception
aborts. -/
def mapE (f : α → Except SrcsetError β) : List α → Except SrcsetError (List β)
  | [] => .ok []
  | x :: rest =>
    match f x with
    | .error e => .error e
    | .ok y =>
      match mapE f rest with
      | .error e => .error e
      | .ok ys => .ok (y :: ys)

/-- One comma-separated part: trim, split on whitespace runs, first token is
the URL, remaining tokens are descriptors. -/
def parseCandidate (part : List Char) : Except SrcsetError Candidate :=
  match jsSplitWs (trimChars part) with
  | [] => .ok { url := "" }
  | urlTok :: rest => parseDescriptors { url := String.mk urlTok } rest

/-- Drops every element equal to its immediate predecessor in the original
list. -/
def dedupAdjAux (prev : Candidate) : List Candidate → List Candidate
  | [] => []
  | x :: rest =>
    if x = prev then dedupAdjAux x rest else x :: dedupAdjAux x rest

/-- Model of the source's `deepUnique`: `array.sort().filter((element, index)
=> JSON.stringify(element) !== JSON.stringify(array[index - 1]))`.  The
default sort comparator compares `String(element)`, which is the constant
`"[object Object]"` for every candidate record, and `Array.prototype.sort` is
stable (ES2019), so the sort leaves the order of candidates unchanged; the
filter then drops an element exactly when its JSON serialisation equals that
of its immediate predecessor in the (unchanged) array.  JSON equality on
these records coincides with structural equality, because `parseSrcset`
assigns the keys of every record in the same order (`url`, then one
descriptor). -/
def deepUnique : List Candidate → List Candidate
  | [] => []
  | x :: rest => x :: dedupAdjAux x rest

/-- Model of the source's `parseSrcset`. -/
def parseSrcsetL (cs : List Char) : Except SrcsetError (List Candidate) :=
  match mapE parseCandidate (jsSplitCW cs) with
  | .error e => .error e
  | .ok l => .ok (deepUnique l)

/-- `parseSrcset` at the `String` API boundary. -/
def parseSrcset (s : String) : Except SrcsetError (List Candidate) :=
  parseSrcsetL s.toList

/-- Rendering of one candidate in `stringifySrcset`: the URL, then — under the
source's truthiness tests `if (element.width)` / `if (element.density)` — the
width as `${width}w` and the density as `${density}x`, joined by single
spaces. -/
def renderCandidate (c : Candidate) : List Char :=
  c.url.toList
    ++ (match c.width with
        | some w => if w = 0 then [] else ' ' :: (intToChars w ++ ['w'])
        | none => [])
    ++ (match c.density with
        | some (.fin q) => if q = 0 then [] else ' ' :: (renderQ q ++ ['x'])
        | some .inf => ' ' :: ("Infinity".toList ++ ['x'])
        | some .negInf => ' ' :: ("-Infinity".toList ++ ['x'])
        | none => [])

/-- One candidate of `stringifySrcset`: a falsy (empty) URL throws `URL is
required`. -/
def stringifyCandidate (c : Candidate) : Except SrcsetError (List Char) :=
  if c.url = "" then .error .missingUrl
  else .ok (renderCandidate c)

/-- First-occurrence de-duplication, the order-preserving semantics of
`[...new Set(array)]`. -/
def dedupFirst (seen : List (List Char)) : List (List Char) → List (List Char)
  | [] => []
  | x :: rest =>
    if seen.contains x then dedupFirst seen rest
    else x :: dedupFirst (x :: seen) rest

/-- Model of the source's `stringifySrcset`: render every candidate (throwing
on a missing URL), de-duplicate the rendered strings via a `Set`, and join
with `", "`. -/
def stringifySrcset (l : List Candidate) : Except SrcsetError String :=
  match mapE stringifyCandidate l with
  | .error e => .error e
  | .ok parts => .ok (String.mk (List.intercalate [',', ' '] (dedupFirst [] parts)))

/-! ## Syntactic validity of srcset strings

Modelled from the spec: the srcset micro-syntax of §6/§4.1 — "comma-separated
candidates, each `url[ integer"w" | float"x"]`" — with `", "` as the canonical
separator, URLs as nonempty strings free of whitespace and commas, a width
descriptor a positive decimal integer, and a density descriptor a positive
decimal float literal (`digits [. digits]` or `. digits`). -/

/-- Split on every single occurrence of a space character. -/
def splitSp : List Char → List (List Char)
  | [] => [[]]
  | c :: rest =>
    let r := splitSp rest
    if c = ' ' then [] :: r
    else
      match r with
      | [] => [[c]]
      | p :: ps => (c :: p) :: ps

/-- Valid srcset URL: nonempty, no whitespace, no comma. -/
def urlOk (cs : List Char) : Bool :=
  !cs.isEmpty && cs.all (fun c => !isWs c && c ≠ ',')

/-- Valid positive integer token (for a `w` descriptor). -/
def validIntTok (cs : List Char) : Bool :=
  !cs.isEmpty && cs.all isDig && digitsVal cs != 0

/-- Valid positive decimal float token (for an `x` descriptor):
`digits [. digits]` or `. digits`, with at least one nonzero digit. -/
def validFloatTok (cs : List Char) : Bool :=
  let ip := cs.takeWhile isDig
  match cs.dropWhile isDig with
  | [] => !ip.isEmpty && digitsVal ip != 0
  | c :: fp =>
    c = '.' && !fp.isEmpty && fp.all isDig &&
      (digitsVal ip != 0 || digitsVal fp != 0)

/-- Valid descriptor token: a positive integer followed by `w`, or a positive
float followed by `x`. -/
def descOk (d : List Char) : Bool :=
  if d.getLast? = some 'w' then validIntTok d.dropLast
  else if d.getLast? = some 'x' then validFloatTok d.dropLast
  else false

/-- Valid candidate: `url` alone or `url` + one space + descriptor. -/
def candOk (cs : List Char) : Bool :=
  match splitSp cs with
  | [u] => urlOk u
  | [u, d] => urlOk u && descOk d
  | _ => false

/-- The `", "`-separated sub-grammar of valid srcset strings: a nonempty
`", "`-separated sequence of valid candidates, each a URL optionally
followed by one space and one descriptor.  This is the fragment on which the
source's `/,\s+/` split separates the candidates exactly; the full grammar
of the spec (`ValidSrcsetHTMLP`) needs no whitespace after the comma, and on
such inputs the source's parse throws — see the claim C1 counterexample.
The amended claim C1 is stated on this sub-grammar. -/
def ValidSrcsetP (s : String) : Prop :=
  ∃ parts : List (List Char), parts ≠ [] ∧ (∀ p ∈ parts, candOk p = true) ∧
    s.toList = List.intercalate [',', ' '] parts

/-- Modelled from the spec (§6, §4.1): in the HTML srcset grammar the
candidates are separated by a COMMA alone, the whitespace around them being
optional.  Wider than `ValidSrcsetP`: every `", "`-separated string is also
a `","`-separated one (with parts carrying a leading space, which the
grammar's optional whitespace allows), but not conversely. -/
def ValidSrcsetHTMLP (s : String) : Prop :=
  ∃ parts : List (List Char), parts ≠ [] ∧ (∀ p ∈ parts, candOk p = true) ∧
    s.toList = List.intercalate [','] parts

/-! ## Claim C10: parse/serialize on the empty string -/

/-- Claim C10: `parseSrcset` applied to the empty string returns exactly one
candidate, whose URL is the empty string and which carries neither width nor
density; and `stringifySrcset` applied to that result fails with `MissingUrl`
— the round trip on empty input fails rather than producing an empty
candidate list. -/
theorem parse_empty_serialize_missingUrl :
    parseSrcset "" = .ok [{ url := "", width := none, density := none }] ∧
    stringifySrcset [{ url := "", width := none, density := none }] =
      .error .missingUrl := by
  constructor <;> rfl

/-! ## Claim C2: ordering and de-duplication of parsed candidates -/

/-- Boolean test that no two adjacent elements of the list are equal. -/
def noAdjDup : List Candidate → Bool
  | [] => true
  | [_] => true
  | x :: y :: rest => x != y && noAdjDup (y :: rest)

theorem noAdjDup_dedupAdjAux (prev : Candidate) (l : List Candidate) :
    noAdjDup (prev :: dedupAdjAux prev l) = true := by
  induction l generalizing prev with
  | nil => rfl
  | cons x rest ih =>
    by_cases h : x = prev
    · simpa [dedupAdjAux, h] using ih x
    · have := ih x
      simp [dedupAdjAux, h, noAdjDup, this]
      exact fun hc => h hc.symm

/-- Counterexample to claim C2 as stated: two structurally equal candidates
that are NOT adjacent in the input do not collapse — the default sort is a
stable no-op on candidate objects, so `deepUnique` only removes adjacent
duplicates.  The output also is not sorted by any total order over the
serialised candidates, since the duplicate appears on both sides of a
different candidate. -/
theorem parse_nonadjacent_duplicates_survive :
    parseSrcset "a.jpg 100w, b.jpg 50w, a.jpg 100w" =
      .ok [{ url := "a.jpg", width := some 100 },
           { url := "b.jpg", width := some 50 },
           { url := "a.jpg", width := some 100 }] := by
  rfl

/-- Claim C2 as amended: `parseSrcset` keeps candidates in input order (the
default sort compares the constant string rendering of the records and is
stable, hence reorders nothing) and de-duplicates only adjacent structurally
equal candidates; in particular the claim's concrete example
`"a.jpg 100w, a.jpg 100w"`, whose duplicates are adjacent, still collapses to
exactly one candidate. -/
theorem parse_dedupes_adjacent_only :
    (∀ s l, parseSrcset s = .ok l → noAdjDup l = true) ∧
    parseSrcset "a.jpg 100w, a.jpg 100w" =
      .ok [{ url := "a.jpg", width := some 100 }] := by
  refine ⟨fun s l h => ?_, rfl⟩
  unfold parseSrcset parseSrcsetL at h
  rcases hm : mapE parseCandidate (jsSplitCW s.toList) with e | cs
  · rw [hm] at h; exact absurd h (by simp)
  · rw [hm] at h
    obtain rfl : deepUnique cs = l := by injection h
    cases cs with
    | nil => rfl
    | cons x rest => exact noAdjDup_dedupAdjAux x rest

/-- Witness for `parse_dedupes_adjacent_only` at the claim's concrete input. -/
theorem parse_dedupes_adjacent_only_witness :
    noAdjDup [{ url := "a.jpg", width := some 100 }] = true :=
  parse_dedupes_adjacent_only.1 "a.jpg 100w, a.jpg 100w"
    [{ url := "a.jpg", width := some 100 }] parse_dedupes_adjacent_only.2

/-! ## Claim C3: descriptor validation errors -/

/-- A token that the `w` branch of `parseSrcset` accepts: ends in `w`, the
rest matches the strict integer regex, and the parsed value is positive. -/
def goodWTok (tok : List Char) : Bool :=
  tok.getLast? = some 'w' && isIntegerString tok.dropLast &&
    decide (0 < jsParseIntDec tok.dropLast)

/-- A token that the `x` branch of `parseSrcset` accepts: ends in `x`, and
`parseFloat` of the rest is a positive number (not NaN). -/
def goodXTok (tok : List Char) : Bool :=
  tok.getLast? = some 'x' &&
    (match jsParseFloat (String.mk tok.dropLast) with
     | some v => !pfNonpos v
     | none => false)

theorem goodWTok_goodXTok_exclusive (tok : List Char) :
    goodWTok tok = true → goodXTok tok = false := by
  unfold goodWTok goodXTok
  intro h
  simp only [Bool.and_eq_true, decide_eq_true_eq] at h
  simp [h.1.1]

/-- Descriptor processing on a token accepted by the `w` branch: the width is
replaced and nothing else changes, unless a conflict is then detected. -/
theorem parseDescriptor_goodW (c : Candidate) (tok : List Char)
    (h : goodWTok tok = true) :
    parseDescriptor c tok =
      (if truthyD c.density then .error .conflictingDescriptors
       else .ok { c with width := some (jsParseIntDec tok.dropLast) }) := by
  unfold goodWTok at h
  simp only [Bool.and_eq_true, decide_eq_true_eq] at h
  obtain ⟨⟨h1, h2⟩, h3⟩ := h
  have hne : jsParseIntDec tok.dropLast ≠ 0 := by omega
  by_cases hd : truthyD c.density <;>
    simp [parseDescriptor, h1, h2, not_le.mpr h3, truthyW, hne, hd]

/-- A `parseFloat` value the `x` branch stores (not nonpositive) is truthy. -/
theorem truthyD_of_not_nonpos {v : PFloat} (h : pfNonpos v = false) :
    truthyD (some v) = true := by
  cases v with
  | inf => rfl
  | negInf => exact absurd h (by decide)
  | fin q =>
    unfold pfNonpos at h
    rw [decide_eq_false_iff_not, not_le] at h
    simp [truthyD, ne_of_gt h]

/-- Descriptor processing on a token accepted by the `x` branch. -/
theorem parseDescriptor_goodX (c : Candidate) (tok : List Char)
    (h : goodXTok tok = true) :
    ∃ v, jsParseFloat (String.mk tok.dropLast) = some v ∧
      pfNonpos v = false ∧
      parseDescriptor c tok =
        (if truthyW c.width then .error .conflictingDescriptors
         else .ok { c with density := some v }) := by
  unfold goodXTok at h
  simp only [Bool.and_eq_true, decide_eq_true_eq] at h
  obtain ⟨h1, h2⟩ := h
  rcases hq : jsParseFloat (String.mk tok.dropLast) with _ | v
  · rw [hq] at h2; simp at h2
  · rw [hq] at h2
    simp only [Bool.not_eq_true'] at h2
    refine ⟨v, rfl, h2, ?_⟩
    have hxw : tok.getLast? ≠ some 'w' := by rw [h1]; decide
    have htd : truthyD (some v) = true := truthyD_of_not_nonpos h2
    by_cases hw : truthyW c.width <;>
      simp [parseDescriptor, h1, hxw, hq, h2, htd, hw]

/-- Claim C3 (first part): a token accepted by neither branch makes
`parseDescriptor` fail with an error of the spec's `InvalidDescriptor` class
(the bad-token error or one of the two non-positive-value errors). -/
theorem parseDescriptor_bad (c : Candidate) (tok : List Char)
    (hw : goodWTok tok = false) (hx : goodXTok tok = false) :
    ∃ e, parseDescriptor c tok = .error e ∧ isInvalidDescriptorClass e = true := by
  by_cases h1 : tok.getLast? = some 'w'
  · by_cases h2 : isIntegerString tok.dropLast = true
    · have h3 : jsParseIntDec tok.dropLast ≤ 0 := by
        by_contra hpos
        rw [not_le] at hpos
        have hgw : goodWTok tok = true := by simp [goodWTok, h1, h2, hpos]
        rw [hgw] at hw
        exact absurd hw (by simp)
      exact ⟨.widthNotPositive, by simp [parseDescriptor, h1, h2, h3], rfl⟩
    · have hxx : tok.getLast? ≠ some 'x' := by rw [h1]; decide
      refine ⟨.invalidDescriptor (String.mk tok), ?_, rfl⟩
      simp only [Bool.not_eq_true] at h2
      simp [parseDescriptor, h1, h2, hxx]
  · by_cases h2 : tok.getLast? = some 'x'
    · rcases hq : jsParseFloat (String.mk tok.dropLast) with _ | v
      · exact ⟨.invalidDescriptor (String.mk tok),
          by simp [parseDescriptor, h1, h2, hq], rfl⟩
      · have h3 : pfNonpos v = true := by
          by_contra hpos
          rw [Bool.not_eq_true] at hpos
          have hgx : goodXTok tok = true := by simp [goodXTok, h2, hq, hpos]
          rw [hgx] at hx
          exact absurd hx (by simp)
        exact ⟨.densityNotPositive,
          by simp [parseDescriptor, h1, h2, hq, h3], rfl⟩
    · exact ⟨.invalidDescriptor (String.mk tok),
        by simp [parseDescriptor, h1, h2], rfl⟩

theorem parseDescriptors_conflict_afterW (u : String) :
    ∀ descs : List (List Char),
      descs.all (fun t => goodWTok t || goodXTok t) = true →
      descs.any goodXTok = true →
      ∀ w : Int, w ≠ 0 → ∀ d : Option PFloat,
      parseDescriptors { url := u, width := some w, density := d } descs =
        .error .conflictingDescriptors := by
  intro descs
  induction descs with
  | nil => intro _ hx; simp at hx
  | cons t rest ih =>
    intro hall hx w hw d
    simp only [List.all_cons, Bool.and_eq_true] at hall
    by_cases htw : goodWTok t = true
    · have htx : goodXTok t = false := goodWTok_goodXTok_exclusive t htw
      have hx' : rest.any goodXTok = true := by
        simp only [List.any_cons, htx, Bool.false_or] at hx
        exact hx
      have hn : 0 < jsParseIntDec t.dropLast := by
        have h' := htw
        unfold goodWTok at h'
        simp only [Bool.and_eq_true, decide_eq_true_eq] at h'
        exact h'.2
      rw [parseDescriptors, parseDescriptor_goodW _ _ htw]
      dsimp only
      by_cases hd : truthyD d
      · simp [hd]
      · simp only [Bool.not_eq_true] at hd
        simp only [hd, Bool.false_eq_true, if_false]
        exact ih hall.2 hx' _ (by omega) d
    · have htx : goodXTok t = true := by
        rcases Bool.or_eq_true_iff.mp hall.1 with h | h
        · exact absurd h htw
        · exact h
      obtain ⟨v, _, hvpos, heq⟩ := parseDescriptor_goodX
        { url := u, width := some w, density := d } t htx
      rw [parseDescriptors, heq]
      have hww : truthyW (some w) = true := by simp [truthyW, hw]
      dsimp only
      simp [hww]

theorem parseDescriptors_conflict_afterX (u : String) :
    ∀ descs : List (List Char),
      descs.all (fun t => goodWTok t || goodXTok t) = true →
      descs.any goodWTok = true →
      ∀ v : PFloat, truthyD (some v) = true →
      parseDescriptors { url := u, width := none, density := some v } descs =
        .error .conflictingDescriptors := by
  intro descs
  induction descs with
  | nil => intro _ hw; simp at hw
  | cons t rest ih =>
    intro hall hw v hv
    simp only [List.all_cons, Bool.and_eq_true] at hall
    by_cases htw : goodWTok t = true
    · rw [parseDescriptors, parseDescriptor_goodW _ _ htw]
      dsimp only
      simp [hv]
    · have htx : goodXTok t = true := by
        rcases Bool.or_eq_true_iff.mp hall.1 with h | h
        · exact absurd h htw
        · exact h
      have hw' : rest.any goodWTok = true := by
        simp only [List.any_cons, htw, Bool.false_or] at hw
        exact hw
      obtain ⟨v2, _, hv2pos, heq⟩ := parseDescriptor_goodX
        { url := u, width := none, density := some v } t htx
      rw [parseDescriptors, heq]
      dsimp only
      simp only [truthyW, Bool.false_eq_true, if_false]
      exact ih hall.2 hw' v2 (truthyD_of_not_nonpos hv2pos)

/-- Claim C3: after the URL token, `parseSrcset` fails with an error of the
spec's `InvalidDescriptor` class on any token that does not end in `w` with a
positive strict-integer value or in `x` with a positive `parseFloat` value;
it fails with `ConflictingDescriptors` whenever the descriptor tokens of one
candidate carry both a width and a density; and on the spec's concrete
examples, `"a.jpg 0w"` and `"a.jpg 0x"` fail with the non-positive-descriptor
errors while `"a.jpg 2x 100w"` fails with `ConflictingDescriptors`.  The
"positive `parseFloat` value" of the `x` branch includes the `Infinity`
literal, which `parseFloat` accepts: `"a.jpg Infinityx"` parses with density
`Infinity`, while `"a.jpg -Infinityx"` is non-positive and fails. -/
theorem descriptor_validation :
    (∀ c tok, goodWTok tok = false → goodXTok tok = false →
      ∃ e, parseDescriptor c tok = .error e ∧ isInvalidDescriptorClass e = true) ∧
    (∀ u descs, descs.all (fun t => goodWTok t || goodXTok t) = true →
      descs.any goodWTok = true → descs.any goodXTok = true →
      parseDescriptors { url := u, width := none, density := none } descs =
        .error .conflictingDescriptors) ∧
    parseSrcset "a.jpg 0w" = .error .widthNotPositive ∧
    parseSrcset "a.jpg 0x" = .error .densityNotPositive ∧
    parseSrcset "a.jpg 2x 100w" = .error .conflictingDescriptors ∧
    parseSrcset "a.jpg Infinityx" =
      .ok [{ url := "a.jpg", density := some .inf }] ∧
    parseSrcset "a.jpg -Infinityx" = .error .densityNotPositive := by
  refine ⟨parseDescriptor_bad, ?_, rfl, rfl, rfl, rfl, rfl⟩
  intro u descs hall hw hx
  cases descs with
  | nil => simp at hw
  | cons t rest =>
    simp only [List.all_cons, Bool.and_eq_true] at hall
    by_cases htw : goodWTok t = true
    · have htx : goodXTok t = false := goodWTok_goodXTok_exclusive t htw
      have hx' : rest.any goodXTok = true := by
        simp only [List.any_cons, htx, Bool.false_or] at hx
        exact hx
      have hn : 0 < jsParseIntDec t.dropLast := by
        have h' := htw
        unfold goodWTok at h'
        simp only [Bool.and_eq_true, decide_eq_true_eq] at h'
        exact h'.2
      rw [parseDescriptors, parseDescriptor_goodW _ _ htw]
      dsimp only
      simp only [truthyD, Bool.false_eq_true, if_false]
      exact parseDescriptors_conflict_afterW u rest hall.2 hx' _ (by omega) none
    · have htx : goodXTok t = true := by
        rcases Bool.or_eq_true_iff.mp hall.1 with h | h
        · exact absurd h htw
        · exact h
      have hw' : rest.any goodWTok = true := by
        simp only [List.any_cons, htw, Bool.false_or] at hw
        exact hw
      obtain ⟨v, _, hvpos, heq⟩ := parseDescriptor_goodX
        { url := u, width := none, density := none } t htx
      rw [parseDescriptors, heq]
      dsimp only
      simp only [truthyW, Bool.false_eq_true, if_false]
      exact parseDescriptors_conflict_afterX u rest hall.2 hw' v
        (truthyD_of_not_nonpos hvpos)

/-- Witness for `descriptor_validation`: the invalid token `"5q"` fails with
an `InvalidDescriptor`-class error, and a `2x` descriptor followed by a `3w`
descriptor conflicts. -/
theorem descriptor_validation_witness :
    (∃ e, parseDescriptor { url := "a" } ['5', 'q'] = .error e ∧
      isInvalidDescriptorClass e = true) ∧
    parseDescriptors { url := "a", width := none, density := none }
      [['2', 'x'], ['3', 'w']] = .error .conflictingDescriptors :=
  ⟨descriptor_validation.1 { url := "a" } ['5', 'q'] (by decide) (by decide),
   descriptor_validation.2.1 "a" [['2', 'x'], ['3', 'w']]
     (by decide) (by decide) (by decide)⟩
/-! ## Character-class and digit-string lemmas (towards claim C1) -/

theorem not_ws_of_isDig {c : Char} (h : isDig c = true) : isWs c = false := by
  cases hw : isWs c
  · rfl
  · exfalso
    have hww := hw
    simp only [isWs, Bool.or_eq_true_iff, decide_eq_true_eq] at hww
    rcases hww with ((((rfl | rfl) | rfl) | rfl) | rfl) | rfl <;>
      exact absurd h (by decide)

theorem ne_of_isDig {c : Char} (h : isDig c = true) {d : Char}
    (hd : isDig d = false) : c ≠ d := by
  intro h'
  rw [h', hd] at h
  exact absurd h (by simp)

theorem digitsVal_from (a : Nat) (l : List Char) :
    l.foldl (fun a c => a * 10 + dval c) a = a * 10 ^ l.length + digitsVal l := by
  induction l generalizing a with
  | nil => simp [digitsVal]
  | cons c t ih =>
    simp only [List.foldl_cons, digitsVal, List.length_cons]
    rw [ih (a * 10 + dval c)]
    conv_rhs => rw [show t.foldl (fun a c => a * 10 + dval c) (0 * 10 + dval c)
      = (0 * 10 + dval c) * 10 ^ t.length + digitsVal t from ih _]
    ring

theorem digitsVal_append (l1 l2 : List Char) :
    digitsVal (l1 ++ l2) = digitsVal l1 * 10 ^ l2.length + digitsVal l2 := by
  unfold digitsVal
  rw [List.foldl_append]
  exact digitsVal_from _ l2

theorem digitsVal_replicate_zero (n : Nat) :
    digitsVal (List.replicate n '0') = 0 := by
  induction n with
  | zero => rfl
  | succ k ih =>
    rw [List.replicate_succ]
    simpa [digitsVal, dval] using ih

theorem dval_digitChar (m : Nat) (h : m < 10) : dval (digitChar m) = m := by
  interval_cases m <;> rfl

theorem isDig_digitChar (m : Nat) : isDig (digitChar m) = true := by
  rcases m with _|_|_|_|_|_|_|_|_|m <;> rfl

theorem natDigitsAux_spec : ∀ fuel n, n ≤ fuel →
    digitsVal (natDigitsAux fuel n) = n ∧
    (∀ c ∈ natDigitsAux fuel n, isDig c = true) ∧
    (n ≠ 0 → natDigitsAux fuel n ≠ []) := by
  intro fuel
  induction fuel with
  | zero =>
    intro n hn
    interval_cases n
    exact ⟨rfl, by simp [natDigitsAux], by simp⟩
  | succ f ih =>
    intro n hn
    by_cases h0 : n = 0
    · subst h0
      exact ⟨rfl, by simp [natDigitsAux], by simp⟩
    · have hdiv : n / 10 ≤ f := by omega
      obtain ⟨ih1, ih2, _⟩ := ih (n / 10) hdiv
      rw [natDigitsAux, if_neg h0]
      refine ⟨?_, ?_, by simp⟩
      · rw [digitsVal_append, ih1]
        simp only [List.length_cons, List.length_nil, pow_one, digitsVal,
          List.foldl_cons, List.foldl_nil]
        rw [dval_digitChar _ (Nat.mod_lt n (by omega))]
        omega
      · intro c hc
        rcases List.mem_append.mp hc with h | h
        · exact ih2 c h
        · simp only [List.mem_singleton] at h
          subst h
          exact isDig_digitChar _

theorem natDigits_spec (n : Nat) :
    digitsVal (natDigits n) = n ∧ (∀ c ∈ natDigits n, isDig c = true) ∧
    (n ≠ 0 → natDigits n ≠ []) :=
  natDigitsAux_spec n n le_rfl

/-- A run of characters satisfying `p` followed by a character not satisfying
it: `takeWhile`/`dropWhile` split exactly at the boundary. -/
theorem takeWhile_append_not (p : Char → Bool) (a : List Char) (b : Char)
    (t : List Char) (ha : ∀ c ∈ a, p c = true) (hb : p b = false) :
    (a ++ b :: t).takeWhile p = a ∧ (a ++ b :: t).dropWhile p = b :: t := by
  induction a with
  | nil => simp [List.takeWhile, List.dropWhile, hb]
  | cons c cs ih =>
    have hc : p c = true := ha c (by simp)
    have := ih (fun c hc' => ha c (by simp [hc']))
    simp only [List.cons_append, List.takeWhile_cons, List.dropWhile_cons, hc,
      if_pos]
    exact ⟨by rw [this.1], by rw [this.2]⟩

theorem takeWhile_all (p : Char → Bool) (a : List Char)
    (ha : ∀ c ∈ a, p c = true) :
    a.takeWhile p = a ∧ a.dropWhile p = [] := by
  induction a with
  | nil => simp
  | cons c cs ih =>
    have hc : p c = true := ha c (by simp)
    have := ih (fun c hc' => ha c (by simp [hc']))
    simp only [List.takeWhile_cons, List.dropWhile_cons, hc, if_pos]
    exact ⟨by rw [this.1], this.2⟩

/-! ## Splitter lemmas (towards claim C1) -/

theorem intercalate_single (sep p : List Char) :
    List.intercalate sep [p] = p := by
  simp [List.intercalate]

theorem intercalate_cons_cons (sep p q : List Char) (rest : List (List Char)) :
    List.intercalate sep (p :: q :: rest) =
      p ++ sep ++ List.intercalate sep (q :: rest) := by
  simp [List.intercalate, List.intersperse]

theorem headIsWs_false_of_all {cs : List Char}
    (h : ∀ c ∈ cs, isWs c = false) : headIsWs cs = false := by
  cases cs with
  | nil => rfl
  | cons c t => exact h c (by simp)

theorem jsSplitCWAux_advance (p : List Char) (hp : ∀ c ∈ p, c ≠ ',') :
    ∀ acc rest,
      jsSplitCWAux (some acc) (p ++ rest) =
        jsSplitCWAux (some (p.reverse ++ acc)) rest := by
  induction p with
  | nil => intro acc rest; simp
  | cons c t ih =>
    intro acc rest
    have hc : c ≠ ',' := hp c (by simp)
    rw [List.cons_append, jsSplitCWAux]
    simp only [hc, decide_False, Bool.false_and, Bool.false_eq_true, if_false]
    rw [ih (fun c hc' => hp c (by simp [hc'])) (c :: acc) rest]
    simp

theorem jsSplitWsAux_advance (p : List Char) (hp : ∀ c ∈ p, isWs c = false) :
    ∀ acc rest,
      jsSplitWsAux (some acc) (p ++ rest) =
        jsSplitWsAux (some (p.reverse ++ acc)) rest := by
  induction p with
  | nil => intro acc rest; simp
  | cons c t ih =>
    intro acc rest
    have hc : isWs c = false := hp c (by simp)
    rw [List.cons_append, jsSplitWsAux]
    simp only [hc, Bool.false_eq_true, if_false]
    rw [ih (fun c hc' => hp c (by simp [hc'])) (c :: acc) rest]
    simp

theorem jsSplitWs_single (u : List Char) (hu : ∀ c ∈ u, isWs c = false) :
    jsSplitWs u = [u] := by
  unfold jsSplitWs
  have := jsSplitWsAux_advance u hu [] []
  rw [List.append_nil] at this
  rw [this]
  simp [jsSplitWsAux]

theorem jsSplitWs_pair (u d : List Char) (hu : ∀ c ∈ u, isWs c = false)
    (hd : ∀ c ∈ d, isWs c = false) :
    jsSplitWs (u ++ ' ' :: d) = [u, d] := by
  unfold jsSplitWs
  rw [jsSplitWsAux_advance u hu [] (' ' :: d)]
  rw [jsSplitWsAux]
  rw [if_pos (by decide)]
  simp only [List.append_nil, List.reverse_reverse]
  congr 1
  cases d with
  | nil => rfl
  | cons c t =>
    have hc : isWs c = false := hd c (by simp)
    rw [jsSplitWsAux]
    simp only [hc, Bool.false_eq_true, if_false]
    have hadv := jsSplitWsAux_advance t (fun x hx => hd x (by simp [hx])) [c] []
    rw [List.append_nil] at hadv
    rw [hadv]
    simp [jsSplitWsAux]

theorem jsSplitCWAux_none_fresh (cs : List Char) (h1 : headIsWs cs = false)
    (h2 : ∀ c t, cs = c :: t → c ≠ ',') :
    jsSplitCWAux none cs = jsSplitCWAux (some []) cs := by
  cases cs with
  | nil => rfl
  | cons c t =>
    have hc : isWs c = false := h1
    have hcc : c ≠ ',' := h2 c t rfl
    simp [jsSplitCWAux, hc, hcc]

theorem jsSplitCW_intercalate :
    ∀ parts : List (List Char), parts ≠ [] →
      (∀ p ∈ parts, p ≠ [] ∧ (∀ c ∈ p, c ≠ ',') ∧ headIsWs p = false) →
      jsSplitCW (List.intercalate [',', ' '] parts) = parts := by
  intro parts
  induction parts with
  | nil => intro h; exact absurd rfl h
  | cons p ps ih =>
    intro _ hconds
    obtain ⟨hpne, hpcomma, hphead⟩ := hconds p (by simp)
    cases ps with
    | nil =>
      rw [intercalate_single]
      unfold jsSplitCW
      have := jsSplitCWAux_advance p hpcomma [] []
      rw [List.append_nil] at this
      rw [this]
      simp [jsSplitCWAux]
    | cons q qs =>
      obtain ⟨hqne, hqcomma, hqhead⟩ := hconds q (by simp)
      rw [intercalate_cons_cons]
      unfold jsSplitCW
      rw [List.append_assoc,
        jsSplitCWAux_advance p hpcomma [] ([',', ' '] ++ _)]
      rw [show ([',', ' '] : List Char) ++ List.intercalate [',', ' '] (q :: qs)
          = ',' :: ' ' :: List.intercalate [',', ' '] (q :: qs) from rfl]
      rw [jsSplitCWAux]
      rw [if_pos (by simp [headIsWs, isWs])]
      rw [jsSplitCWAux]
      rw [if_pos (by decide)]
      simp only [List.append_nil, List.reverse_reverse]
      congr 1
      have hiq : List.intercalate [',', ' '] (q :: qs) ≠ [] ∧
          headIsWs (List.intercalate [',', ' '] (q :: qs)) = false ∧
          (∀ c t, List.intercalate [',', ' '] (q :: qs) = c :: t → c ≠ ',') := by
        cases qs with
        | nil =>
          rw [intercalate_single]
          refine ⟨hqne, hqhead, ?_⟩
          intro c t hct
          subst hct
          exact hqcomma c (by simp)
        | cons r rs =>
          rw [intercalate_cons_cons]
          cases q with
          | nil => exact absurd rfl hqne
          | cons qc qt =>
            refine ⟨by simp, hqhead, ?_⟩
            intro c t hct
            rw [List.cons_append, List.cons_append] at hct
            injection hct with hc _
            rw [← hc]
            exact hqcomma qc (by simp)
      rw [jsSplitCWAux_none_fresh _ hiq.2.1 hiq.2.2]
      exact ih (by simp) (fun r hr => hconds r (by simp [hr]))

theorem trimChars_id (cs : List Char) (h1 : headIsWs cs = false)
    (h2 : headIsWs cs.reverse = false) : trimChars cs = cs := by
  unfold trimChars
  have hdw : cs.dropWhile isWs = cs := by
    cases cs with
    | nil => rfl
    | cons c t =>
      have : isWs c = false := h1
      simp [List.dropWhile_cons, this]
  rw [hdw]
  have hdw2 : cs.reverse.dropWhile isWs = cs.reverse := by
    cases hr : cs.reverse with
    | nil => rfl
    | cons c t =>
      rw [hr] at h2
      have : isWs c = false := h2
      simp [List.dropWhile_cons, this]
  rw [hdw2, List.reverse_reverse]

/-! ## Candidate-grammar structure lemmas (towards claim C1) -/

theorem splitSp_ne_nil : ∀ cs, splitSp cs ≠ [] := by
  intro cs
  cases cs with
  | nil => simp [splitSp]
  | cons c rest =>
    rw [splitSp]
    by_cases hc : c = ' '
    · simp [hc]
    · simp only [hc, if_false]
      match splitSp rest with
      | [] => simp
      | p :: ps => simp

theorem splitSp_spec : ∀ cs, List.intercalate [' '] (splitSp cs) = cs ∧
    ∀ q ∈ splitSp cs, ∀ c ∈ q, c ≠ ' ' := by
  intro cs
  induction cs with
  | nil => exact ⟨by simp [splitSp, intercalate_single], by simp [splitSp]⟩
  | cons c rest ih =>
    obtain ⟨ih1, ih2⟩ := ih
    rw [splitSp]
    by_cases hc : c = ' '
    · subst hc
      simp only [if_pos rfl, if_true, eq_self_iff_true]
      constructor
      · rcases hsp : splitSp rest with _ | ⟨p, ps⟩
        · exact absurd hsp (splitSp_ne_nil rest)
        · rw [intercalate_cons_cons]
          rw [hsp] at ih1
          rw [ih1]
          rfl
      · intro q hq
        rcases List.mem_cons.mp hq with rfl | hq'
        · simp
        · exact ih2 q hq'
    · simp only [hc, if_false]
      rcases hsp : splitSp rest with _ | ⟨p, ps⟩
      · exact absurd hsp (splitSp_ne_nil rest)
      · rw [hsp] at ih1 ih2
        constructor
        · cases ps with
          | nil =>
            rw [intercalate_single]
            rw [intercalate_single] at ih1
            rw [ih1]
          | cons q qs =>
            rw [intercalate_cons_cons]
            rw [intercalate_cons_cons] at ih1
            simp only [List.cons_append]
            rw [ih1]
        · intro q hq
          rcases List.mem_cons.mp hq with rfl | hq'
          · intro x hx
            rcases List.mem_cons.mp hx with rfl | hx'
            · exact hc
            · exact ih2 p (by simp) x hx'
          · exact ih2 q (by simp [hq'])

theorem splitSp_no_space (cs : List Char) (h : ∀ c ∈ cs, c ≠ ' ') :
    splitSp cs = [cs] := by
  induction cs with
  | nil => rfl
  | cons c rest ih =>
    have hc : c ≠ ' ' := h c (by simp)
    rw [splitSp]
    simp only [hc, if_false]
    rw [ih (fun x hx => h x (by simp [hx]))]

theorem splitSp_url_desc (u d : List Char) (hu : ∀ c ∈ u, c ≠ ' ')
    (hd : ∀ c ∈ d, c ≠ ' ') : splitSp (u ++ ' ' :: d) = [u, d] := by
  induction u with
  | nil =>
    rw [List.nil_append, splitSp]
    simp only [if_pos rfl, if_true, eq_self_iff_true]
    rw [splitSp_no_space d hd]
  | cons c t ih =>
    have hc : c ≠ ' ' := hu c (by simp)
    rw [List.cons_append, splitSp]
    simp only [hc, if_false]
    rw [ih (fun x hx => hu x (by simp [hx]))]

/-- Shape analysis of a valid candidate: a bare URL, or URL + space +
descriptor. -/
theorem candOk_shape (p : List Char) (h : candOk p = true) :
    urlOk p = true ∨
    ∃ u d, p = u ++ ' ' :: d ∧ urlOk u = true ∧ descOk d = true := by
  unfold candOk at h
  rcases hsp : splitSp p with _ | ⟨u, ps⟩
  · exact absurd hsp (splitSp_ne_nil p)
  · rw [hsp] at h
    obtain ⟨hjoin, _⟩ := splitSp_spec p
    rw [hsp] at hjoin
    cases ps with
    | nil =>
      left
      rw [intercalate_single] at hjoin
      rw [← hjoin]
      exact h
    | cons d ds =>
      cases ds with
      | nil =>
        right
        refine ⟨u, d, ?_, ?_, ?_⟩
        · rw [intercalate_cons_cons, intercalate_single] at hjoin
          rw [← hjoin]
          simp
        · exact (Bool.and_eq_true _ _ |>.mp h).1
        · exact (Bool.and_eq_true _ _ |>.mp h).2
      | cons e es => exact absurd h (by simp)

theorem eq_dropLast_concat_of_getLast? {d : List Char} {c : Char}
    (hl : d.getLast? = some c) : d = d.dropLast ++ [c] := by
  have hdne : d ≠ [] := by
    intro hd0
    rw [hd0] at hl
    exact absurd hl (by simp)
  have h1 := List.dropLast_append_getLast hdne
  have h2 : d.getLast hdne = c := by
    rw [List.getLast?_eq_getLast d hdne] at hl
    injection hl
  rw [h2] at h1
  exact h1.symm

/-- Shape analysis of a valid descriptor token. -/
theorem descOk_shape (d : List Char) (h : descOk d = true) :
    (∃ v, d = v ++ ['w'] ∧ validIntTok v = true) ∨
    (∃ v, d = v ++ ['x'] ∧ validFloatTok v = true) := by
  unfold descOk at h
  by_cases hw : d.getLast? = some 'w'
  · left
    rw [if_pos hw] at h
    exact ⟨d.dropLast, eq_dropLast_concat_of_getLast? hw, h⟩
  · by_cases hx : d.getLast? = some 'x'
    · right
      rw [if_neg hw, if_pos hx] at h
      exact ⟨d.dropLast, eq_dropLast_concat_of_getLast? hx, h⟩
    · rw [if_neg hw, if_neg hx] at h
      exact absurd h (by simp)

/-- Character classes of a valid integer token. -/
theorem validIntTok_facts (v : List Char) (h : validIntTok v = true) :
    v ≠ [] ∧ (∀ c ∈ v, isDig c = true) ∧ digitsVal v ≠ 0 := by
  unfold validIntTok at h
  simp only [Bool.and_eq_true, Bool.not_eq_true', List.isEmpty_eq_false,
    List.all_eq_true, bne_iff_ne, ne_eq] at h
  exact ⟨h.1.1, fun c hc => h.1.2 c hc, h.2⟩

/-- Character classes of a valid float token. -/
theorem validFloatTok_chars (v : List Char) (h : validFloatTok v = true) :
    ∀ c ∈ v, isDig c = true ∨ c = '.' := by
  unfold validFloatTok at h
  intro c hc
  have hsplit := List.takeWhile_append_dropWhile isDig v
  rcases hrest : v.dropWhile isDig with _ | ⟨b, fp⟩
  · rw [hrest] at hsplit
    rw [List.append_nil] at hsplit
    left
    have hmem : c ∈ v.takeWhile isDig := by rw [hsplit]; exact hc
    exact List.mem_takeWhile_imp hmem
  · rw [hrest] at h hsplit
    simp only [Bool.and_eq_true, decide_eq_true_eq, Bool.not_eq_true',
      List.isEmpty_eq_false, List.all_eq_true] at h
    have hb : b = '.' := h.1.1.1
    rw [← hsplit] at hc
    rcases List.mem_append.mp hc with hin | hin
    · exact Or.inl (List.mem_takeWhile_imp hin)
    · rcases List.mem_cons.mp hin with rfl | hin'
      · exact Or.inr hb
      · exact Or.inl (h.1.2 c hin')

/-! ## Number lemmas (towards claim C1) -/

theorem toList_mk (l : List Char) : (String.mk l).toList = l := rfl

theorem decValue_nil_right (ip : List Char) :
    decValue ip [] = (digitsVal ip : ℚ) := by
  simp [decValue, digitsVal]

theorem expMul_nil : expMul [] = 1 := rfl

theorem decValue_pos (ip fp : List Char)
    (h : digitsVal ip ≠ 0 ∨ digitsVal fp ≠ 0) : 0 < decValue ip fp := by
  unfold decValue
  rcases h with h | h
  · refine add_pos_of_pos_of_nonneg ?_ ?_
    · exact_mod_cast Nat.pos_of_ne_zero h
    · positivity
  · refine add_pos_of_nonneg_of_pos ?_ ?_
    · positivity
    · refine div_pos ?_ (by positivity)
      exact_mod_cast Nat.pos_of_ne_zero h

theorem decValue_den_dvd (ip fp : List Char) :
    ((decValue ip fp).den : ℕ) ∣ 10 ^ fp.length := by
  have hq : decValue ip fp =
      Rat.divInt ((digitsVal ip * 10 ^ fp.length + digitsVal fp : ℕ) : ℤ)
        ((10 ^ fp.length : ℕ) : ℤ) := by
    rw [Rat.divInt_eq_div]
    unfold decValue
    have h10 : ((10 : ℚ) ^ fp.length) ≠ 0 := by positivity
    push_cast
    field_simp
  have := Rat.den_dvd ((digitsVal ip * 10 ^ fp.length + digitsVal fp : ℕ) : ℤ)
    ((10 ^ fp.length : ℕ) : ℤ)
  rw [← hq] at this
  exact_mod_cast this

/-- The branch of `jsParseFloat` taken on a valid float token, together with
positivity and the decimal-denominator property of the resulting rational. -/
theorem jsParseFloat_valid (v : List Char) (h : validFloatTok v = true) :
    ∃ q, jsParseFloat (String.mk v) = some (.fin q) ∧ 0 < q ∧
      ∃ f : ℕ, (q.den : ℕ) ∣ 10 ^ f := by
  have hsplit := List.takeWhile_append_dropWhile isDig v
  unfold validFloatTok at h
  -- the head of `v` is a digit or a dot, hence not whitespace and not a sign
  have hhead : ∀ c0 t, v = c0 :: t →
      isWs c0 = false ∧ c0 ≠ '-' ∧ c0 ≠ '+' := by
    intro c0 t hv
    have hc0 : isDig c0 = true ∨ c0 = '.' := by
      exact validFloatTok_chars v (by unfold validFloatTok; exact h) c0
        (by simp [hv])
    rcases hc0 with hd | rfl
    · exact ⟨not_ws_of_isDig hd, ne_of_isDig hd (by decide),
        ne_of_isDig hd (by decide)⟩
    · exact ⟨by decide, by decide, by decide⟩
  -- and hence the `Infinity` literal branch is not taken
  have hinfne : ∀ c0 t, v = c0 :: t →
      (c0 :: t).take 8 ≠ "Infinity".toList := by
    intro c0 t hv heq
    have hc0 : isDig c0 = true ∨ c0 = '.' := by
      exact validFloatTok_chars v (by unfold validFloatTok; exact h) c0
        (by simp [hv])
    have hshape : "Infinity".toList = 'I' :: "nfinity".toList := rfl
    rw [hshape] at heq
    have h8 : (c0 :: t).take 8 = c0 :: t.take 7 := rfl
    rw [h8] at heq
    injection heq with h1 h2
    rcases hc0 with hd | hdot
    · rw [h1] at hd
      exact absurd hd (by decide)
    · rw [h1] at hdot
      exact absurd hdot (by decide)
  rcases hrest : v.dropWhile isDig with _ | ⟨b, fp⟩ <;> rw [hrest] at h hsplit
  case nil =>
    rw [List.append_nil] at hsplit
    simp only [Bool.and_eq_true, Bool.not_eq_true', List.isEmpty_eq_false,
      bne_iff_ne, ne_eq] at h
    obtain ⟨hne, hval⟩ := h
    have hvne : v ≠ [] := by
      intro h0
      rw [h0] at hne
      simp at hne
    rcases hv : v with _ | ⟨c0, t⟩
    · exact absurd hv hvne
    · obtain ⟨hws, hminus, hplus⟩ := hhead c0 t hv
      refine ⟨(digitsVal (v.takeWhile isDig) : ℚ), ?_, ?_, 0, ?_⟩
      · unfold jsParseFloat
        rw [toList_mk]
        rw [hv, List.dropWhile_cons, if_neg (by simp [hws])]
        simp only [hminus, hplus, if_false]
        rw [if_neg (hinfne c0 t hv)]
        unfold jsParseFloatCore
        rw [← hv, hrest]
        simp only [List.isEmpty_nil, Bool.and_true, List.isEmpty_eq_false]
        rw [if_neg (by rw [hsplit]; simp [hvne])]
        rw [decValue_nil_right, expMul_nil, mul_one]
        rfl
      · exact_mod_cast Nat.pos_of_ne_zero hval
      · simp [Rat.den_natCast]
  case cons =>
    simp only [Bool.and_eq_true, decide_eq_true_eq, Bool.not_eq_true',
      List.isEmpty_eq_false, List.all_eq_true] at h
    obtain ⟨⟨⟨hb, hfpne⟩, hfpdig⟩, hpos⟩ := h
    subst hb
    have hfp : fp.takeWhile isDig = fp ∧ fp.dropWhile isDig = [] :=
      takeWhile_all isDig fp hfpdig
    have hvne : v ≠ [] := by
      intro h0
      rw [h0] at hsplit
      exact absurd hsplit.symm (by simp)
    rcases hv : v with _ | ⟨c0, t⟩
    · exact absurd hv hvne
    · obtain ⟨hws, hminus, hplus⟩ := hhead c0 t hv
      refine ⟨decValue (v.takeWhile isDig) fp, ?_, ?_, fp.length,
        decValue_den_dvd _ _⟩
      · unfold jsParseFloat
        rw [toList_mk]
        rw [hv, List.dropWhile_cons, if_neg (by simp [hws])]
        simp only [hminus, hplus, if_false]
        rw [if_neg (hinfne c0 t hv)]
        unfold jsParseFloatCore
        rw [← hv, hrest]
        dsimp only [takeDigits]
        rw [if_pos rfl]
        rw [if_neg (by simp [hfp.1, List.isEmpty_eq_false.mpr hfpne])]
        rw [hfp.1, hfp.2, expMul_nil, mul_one]
        rfl
      · refine decValue_pos _ _ ?_
        simpa [bne_iff_ne] using hpos

theorem dvd_ten_pow_self : ∀ n : ℕ, 0 < n → ∀ m : ℕ, n ∣ 10 ^ m → n ∣ 10 ^ n := by
  intro n
  induction n using Nat.strong_induction_on with
  | _ n ih =>
    intro hn m hdvd
    by_cases h1 : n = 1
    · subst h1; simp
    · have hp : n.minFac.Prime := Nat.minFac_prime h1
      have hpn : n.minFac ∣ n := Nat.minFac_dvd n
      have hp10 : n.minFac ∣ 10 := hp.dvd_of_dvd_pow (hpn.trans hdvd)
      have hk : n.minFac * (n / n.minFac) = n := Nat.mul_div_cancel' hpn
      have hkpos : 0 < n / n.minFac := by
        rcases Nat.eq_zero_or_pos (n / n.minFac) with h0 | h0
        · rw [h0, Nat.mul_zero] at hk; omega
        · exact h0
      have hklt : n / n.minFac < n := Nat.div_lt_self hn hp.one_lt
      have hkdvd : n / n.minFac ∣ 10 ^ m :=
        (Nat.div_dvd_of_dvd hpn).trans hdvd
      have ihk := ih _ hklt hkpos m hkdvd
      have h2 : n ∣ 10 ^ (n / n.minFac + 1) := by
        calc n = n.minFac * (n / n.minFac) := hk.symm
          _ ∣ 10 * 10 ^ (n / n.minFac) := Nat.mul_dvd_mul hp10 ihk
          _ = 10 ^ (n / n.minFac + 1) := by rw [pow_succ, Nat.mul_comm]
      refine h2.trans (pow_dvd_pow 10 ?_)
      have h2le := hp.two_le
      calc n / n.minFac + 1 ≤ 2 * (n / n.minFac) := by omega
        _ ≤ n.minFac * (n / n.minFac) := Nat.mul_le_mul_right _ h2le
        _ = n := hk

theorem den_one_of_dvd (q : ℚ) (k : ℕ) (h : (q.den : ℕ) ∣ 10 ^ k) :
    (q * 10 ^ k).den = 1 := by
  obtain ⟨t, ht⟩ := h
  have hden : (q.den : ℚ) ≠ 0 := by
    exact_mod_cast q.den_pos.ne'
  have : q * 10 ^ k = ((q.num * t : ℤ) : ℚ) := by
    conv_lhs => rw [← Rat.num_div_den q]
    have h10 : ((10 : ℚ)) ^ k = ((q.den * t : ℕ) : ℚ) := by
      rw [← ht]; push_cast; ring
    rw [h10]
    push_cast
    field_simp
    ring
  rw [this, Rat.den_intCast]

theorem decExp_exists (q : ℚ) (f : ℕ) (h : (q.den : ℕ) ∣ 10 ^ f) :
    ∃ k, decExp q = some k ∧ (q * 10 ^ k).den = 1 := by
  have hself : (q.den : ℕ) ∣ 10 ^ q.den :=
    dvd_ten_pow_self q.den q.den_pos f h
  have hpred : (q * 10 ^ q.den).den = 1 := den_one_of_dvd q q.den hself
  rcases hfind : decExp q with _ | k
  · exfalso
    unfold decExp at hfind
    rw [List.find?_eq_none] at hfind
    exact hfind q.den (List.mem_range.mpr (Nat.lt_succ_self _))
      (by simp [hpred])
  · refine ⟨k, rfl, ?_⟩
    have := List.find?_some hfind
    simpa using this

/-- The decimal rendering of a positive rational with decimal denominator is
a syntactically valid positive float token consisting of digits and at most
one dot. -/
theorem renderQ_valid (q : ℚ) (hq : 0 < q) (f : ℕ)
    (hden : (q.den : ℕ) ∣ 10 ^ f) :
    validFloatTok (renderQ q) = true ∧
      ∀ c ∈ renderQ q, isDig c = true ∨ c = '.' := by
  obtain ⟨k, hk, hden1⟩ := decExp_exists q f hden
  have hm : 0 < (q * 10 ^ k).num := Rat.num_pos.mpr (by positivity)
  have hnane : (q * 10 ^ k).num.natAbs ≠ 0 := by
    simp only [ne_eq, Int.natAbs_eq_zero]
    omega
  obtain ⟨hval, hdig, hne⟩ := natDigits_spec (q * 10 ^ k).num.natAbs
  unfold renderQ
  rw [hk]
  dsimp only
  by_cases hk0 : k = 0
  · subst hk0
    simp only [pow_zero, mul_one, if_true] at hm hnane hval hdig hne ⊢
    unfold intToChars
    rw [if_neg (by omega)]
    unfold natChars
    rw [if_neg hnane]
    have htw := takeWhile_all isDig _ hdig
    constructor
    · unfold validFloatTok
      rw [htw.2, htw.1]
      simp [List.isEmpty_eq_false.mpr (hne hnane), hval, hnane]
    · intro c hc
      exact Or.inl (hdig c hc)
  · rw [if_neg hk0]
    rw [if_neg (by omega : ¬ (q * 10 ^ k).num < 0)]
    set ds := natDigits (q * 10 ^ k).num.natAbs with hds
    set padded := List.replicate (k + 1 - ds.length) '0' ++ ds with hpadded
    have hpdig : ∀ c ∈ padded, isDig c = true := by
      intro c hc
      rcases List.mem_append.mp hc with h | h
      · rw [List.eq_of_mem_replicate h]
        decide
      · exact hdig c h
    have hplen : k + 1 ≤ padded.length := by
      rw [hpadded, List.length_append, List.length_replicate]
      omega
    have hpval : digitsVal padded = (q * 10 ^ k).num.natAbs := by
      rw [hpadded, digitsVal_append, digitsVal_replicate_zero, hval]
      ring
    set ipd := padded.take (padded.length - k) with hipd
    set fpd := padded.drop (padded.length - k) with hfpd
    have hap : ipd ++ fpd = padded := List.take_append_drop _ _
    have hfplen : fpd.length = k := by
      rw [hfpd, List.length_drop]
      omega
    have hfpne : fpd ≠ [] := by
      intro h0
      rw [h0] at hfplen
      exact hk0 hfplen.symm
    have hidig : ∀ c ∈ ipd, isDig c = true := by
      intro c hc
      exact hpdig c (List.mem_of_mem_take hc)
    have hfdig : ∀ c ∈ fpd, isDig c = true := by
      intro c hc
      exact hpdig c (List.mem_of_mem_drop hc)
    have htw := takeWhile_append_not isDig ipd '.' fpd hidig (by decide)
    have hposval : digitsVal ipd ≠ 0 ∨ digitsVal fpd ≠ 0 := by
      by_contra hcon
      push_neg at hcon
      have := hpval
      rw [← hap, digitsVal_append, hcon.1, hcon.2] at this
      simp at this
      exact hnane this.symm
    simp only [List.nil_append]
    constructor
    · unfold validFloatTok
      rw [htw.2, htw.1]
      simp only [Bool.and_eq_true, decide_eq_true_eq, Bool.not_eq_true',
        List.isEmpty_eq_false, List.all_eq_true, bne_iff_ne, ne_eq,
        Bool.or_eq_true_iff]
      refine ⟨⟨⟨trivial, hfpne⟩, fun c hc => hfdig c hc⟩, ?_⟩
      rcases hposval with h | h
      · left; simpa using h
      · right; simpa using h
    · intro c hc
      rcases List.mem_append.mp hc with h | h
      · exact Or.inl (hidig c h)
      · rcases List.mem_cons.mp h with rfl | h'
        · exact Or.inr rfl
        · exact Or.inl (hfdig c h')

/-! ## Candidate-level lemmas and the round-trip theorem (claim C1) -/

/-- The invariant carried by every candidate that `parseSrcset` produces from
a valid input: nonempty comma- and whitespace-free URL, at most one
descriptor, positive width, and positive density with decimal denominator. -/
def GoodCand (c : Candidate) : Prop :=
  c.url.toList ≠ [] ∧ (∀ ch ∈ c.url.toList, isWs ch = false ∧ ch ≠ ',') ∧
  (c.width = none ∨ c.density = none) ∧
  (∀ w, c.width = some w → 0 < w) ∧
  (∀ v, c.density = some v →
    ∃ q, v = .fin q ∧ 0 < q ∧ ∃ f : ℕ, (q.den : ℕ) ∣ 10 ^ f)

theorem not_space_of_not_ws {c : Char} (h : isWs c = false) : c ≠ ' ' := by
  intro hc
  rw [hc] at h
  exact absurd h (by decide)

theorem urlOk_facts (u : List Char) (h : urlOk u = true) :
    u ≠ [] ∧ ∀ c ∈ u, isWs c = false ∧ c ≠ ',' := by
  unfold urlOk at h
  simp only [Bool.and_eq_true, Bool.not_eq_true', List.isEmpty_eq_false,
    List.all_eq_true, decide_eq_true_eq, ne_eq] at h
  exact ⟨h.1, fun c hc => ⟨(h.2 c hc).1, (h.2 c hc).2⟩⟩

theorem descOk_chars (d : List Char) (h : descOk d = true) :
    ∀ c ∈ d, isWs c = false ∧ c ≠ ',' := by
  rcases descOk_shape d h with ⟨v, rfl, hv⟩ | ⟨v, rfl, hv⟩
  · obtain ⟨_, hdig, _⟩ := validIntTok_facts v hv
    intro c hc
    rcases List.mem_append.mp hc with h' | h'
    · exact ⟨not_ws_of_isDig (hdig c h'), ne_of_isDig (hdig c h') (by decide)⟩
    · simp only [List.mem_singleton] at h'
      subst h'
      exact ⟨by decide, by decide⟩
  · have hchars := validFloatTok_chars v hv
    intro c hc
    rcases List.mem_append.mp hc with h' | h'
    · rcases hchars c h' with hd | rfl
      · exact ⟨not_ws_of_isDig hd, ne_of_isDig hd (by decide)⟩
      · exact ⟨by decide, by decide⟩
    · simp only [List.mem_singleton] at h'
      subst h'
      exact ⟨by decide, by decide⟩

theorem candOk_basic (p : List Char) (h : candOk p = true) :
    p ≠ [] ∧ (∀ c ∈ p, c ≠ ',') ∧ headIsWs p = false := by
  rcases candOk_shape p h with hu | ⟨u, d, rfl, hu, hd⟩
  · obtain ⟨hne, hchars⟩ := urlOk_facts p hu
    refine ⟨hne, fun c hc => (hchars c hc).2, ?_⟩
    cases p with
    | nil => rfl
    | cons c t => exact (hchars c (by simp)).1
  · obtain ⟨hne, hchars⟩ := urlOk_facts u hu
    have hdchars := descOk_chars d hd
    refine ⟨by simp, ?_, ?_⟩
    · intro c hc
      rcases List.mem_append.mp hc with h' | h'
      · exact (hchars c h').2
      · rcases List.mem_cons.mp h' with rfl | h''
        · decide
        · exact (hdchars c h'').2
    · cases u with
      | nil => exact absurd rfl hne
      | cons c t =>
        rw [List.cons_append]
        exact (hchars c (by simp)).1

theorem headIsWs_reverse {l : List Char} {c : Char} (h : l.getLast? = some c)
    (hc : isWs c = false) : headIsWs l.reverse = false := by
  have hh := List.head?_reverse l
  rw [h] at hh
  cases hr : l.reverse with
  | nil => rfl
  | cons x t =>
    rw [hr] at hh
    simp only [List.head?_cons, Option.some.injEq] at hh
    subst hh
    exact hc

theorem isIntegerString_of_validIntTok (v : List Char)
    (h : validIntTok v = true) : isIntegerString v = true := by
  obtain ⟨hne, hdig, _⟩ := validIntTok_facts v h
  cases v with
  | nil => exact absurd rfl hne
  | cons c t =>
    have hc : isDig c = true := hdig c (by simp)
    unfold isIntegerString
    dsimp only
    rw [if_neg (ne_of_isDig hc (by decide))]
    simp only [Bool.and_eq_true, List.all_eq_true]
    exact ⟨hc, fun x hx => hdig x (by simp [hx])⟩

theorem jsParseIntDec_of_validIntTok (v : List Char)
    (h : validIntTok v = true) :
    jsParseIntDec v = (digitsVal v : Int) ∧ 0 < jsParseIntDec v := by
  obtain ⟨hne, hdig, hval⟩ := validIntTok_facts v h
  cases v with
  | nil => exact absurd rfl hne
  | cons c t =>
    have hc : isDig c = true := hdig c (by simp)
    have h1 : jsParseIntDec (c :: t) = (digitsVal (c :: t) : Int) := by
      unfold jsParseIntDec
      dsimp only
      rw [if_neg (ne_of_isDig hc (by decide))]
      rw [(takeWhile_all isDig (c :: t) hdig).1]
    rw [h1]
    exact ⟨rfl, by exact_mod_cast Nat.pos_of_ne_zero hval⟩

theorem goodWTok_of_validIntTok (v : List Char) (h : validIntTok v = true) :
    goodWTok (v ++ ['w']) = true := by
  unfold goodWTok
  rw [List.getLast?_concat, List.dropLast_concat]
  simp only [Bool.and_eq_true, decide_eq_true_eq]
  exact ⟨⟨trivial, isIntegerString_of_validIntTok v h⟩,
    (jsParseIntDec_of_validIntTok v h).2⟩

theorem parseCandidate_valid (p : List Char) (h : candOk p = true) :
    ∃ c, parseCandidate p = .ok c ∧ GoodCand c := by
  rcases candOk_shape p h with hu | ⟨u, d, rfl, hu, hd⟩
  · -- bare URL candidate
    obtain ⟨hne, hchars⟩ := urlOk_facts p hu
    have hnws : ∀ c ∈ p, isWs c = false := fun c hc => (hchars c hc).1
    have htrim : trimChars p = p := by
      refine trimChars_id p (headIsWs_false_of_all hnws) ?_
      exact headIsWs_false_of_all (fun c hc => hnws c (List.mem_reverse.mp hc))
    refine ⟨{ url := String.mk p }, ?_, ?_⟩
    · unfold parseCandidate
      rw [htrim, jsSplitWs_single p hnws]
      rfl
    · exact ⟨hne, hchars, Or.inl rfl, by simp, by simp⟩
  · -- URL + descriptor candidate
    obtain ⟨hune, huchars⟩ := urlOk_facts u hu
    have hdchars := descOk_chars d hd
    have hunws : ∀ c ∈ u, isWs c = false := fun c hc => (huchars c hc).1
    have hdnws : ∀ c ∈ d, isWs c = false := fun c hc => (hdchars c hc).1
    have hdne : d ≠ [] := by
      rcases descOk_shape d hd with ⟨v, rfl, _⟩ | ⟨v, rfl, _⟩ <;> simp
    have htrim : trimChars (u ++ ' ' :: d) = u ++ ' ' :: d := by
      refine trimChars_id _ ?_ ?_
      · cases u with
        | nil => exact absurd rfl hune
        | cons c t =>
          rw [List.cons_append]
          exact hunws c (by simp)
      · rcases descOk_shape d hd with ⟨v, rfl, _⟩ | ⟨v, rfl, _⟩
        · refine headIsWs_reverse (c := 'w') ?_ (by decide)
          rw [show u ++ ' ' :: (v ++ ['w']) = (u ++ ' ' :: v) ++ ['w'] by simp]
          exact List.getLast?_concat _
        · refine headIsWs_reverse (c := 'x') ?_ (by decide)
          rw [show u ++ ' ' :: (v ++ ['x']) = (u ++ ' ' :: v) ++ ['x'] by simp]
          exact List.getLast?_concat _
    have hsplit2 : jsSplitWs (u ++ ' ' :: d) = [u, d] :=
      jsSplitWs_pair u d hunws hdnws
    rcases descOk_shape d hd with ⟨v, rfl, hv⟩ | ⟨v, rfl, hv⟩
    · -- width descriptor
      obtain ⟨hjpi, hjpos⟩ := jsParseIntDec_of_validIntTok v hv
      refine ⟨{ url := String.mk u, width := some (jsParseIntDec v) }, ?_, ?_⟩
      · unfold parseCandidate
        rw [htrim, hsplit2]
        show parseDescriptors { url := String.mk u } [v ++ ['w']] = _
        rw [parseDescriptors,
          parseDescriptor_goodW _ _ (goodWTok_of_validIntTok v hv)]
        dsimp only
        simp only [truthyD, Bool.false_eq_true, if_false]
        rw [List.dropLast_concat]
        rfl
      · exact ⟨hune, huchars, Or.inr rfl,
          fun w hw => by injection hw with hw'; omega, by simp⟩
    · -- density descriptor
      obtain ⟨q, hq, hqpos, hqden⟩ := jsParseFloat_valid v hv
      have hgx : goodXTok (v ++ ['x']) = true := by
        unfold goodXTok
        rw [List.getLast?_concat, List.dropLast_concat, hq]
        simp [pfNonpos, not_le.mpr hqpos]
      obtain ⟨v2, hv2, hv2pos, heq⟩ :=
        parseDescriptor_goodX { url := String.mk u } (v ++ ['x']) hgx
      rw [List.dropLast_concat, hq] at hv2
      obtain rfl : PFloat.fin q = v2 := by injection hv2
      refine ⟨{ url := String.mk u, density := some (.fin q) }, ?_, ?_⟩
      · unfold parseCandidate
        rw [htrim, hsplit2]
        show parseDescriptors { url := String.mk u } [v ++ ['x']] = _
        rw [parseDescriptors, heq]
        dsimp only
        simp only [truthyW, Bool.false_eq_true, if_false]
        rfl
      · refine ⟨hune, huchars, Or.inl rfl, by simp, ?_⟩
        intro v3 hv3
        injection hv3 with hv3
        exact ⟨q, hv3.symm, hqpos, hqden⟩

theorem renderCandidate_ok (c : Candidate) (h : GoodCand c) :
    candOk (renderCandidate c) = true ∧ renderCandidate c ≠ [] ∧
    (∀ ch ∈ renderCandidate c, ch ≠ ',') ∧
    headIsWs (renderCandidate c) = false := by
  obtain ⟨hune, hchars, hexcl, hwpos, hqpos⟩ := h
  have hurlOk : urlOk c.url.toList = true := by
    unfold urlOk
    simp only [Bool.and_eq_true, Bool.not_eq_true', List.isEmpty_eq_false,
      List.all_eq_true, decide_eq_true_eq]
    exact ⟨hune, fun x hx => by
      obtain ⟨h1, h2⟩ := hchars x hx
      simp [h1, h2]⟩
  have hunosp : ∀ x ∈ c.url.toList, x ≠ ' ' :=
    fun x hx => not_space_of_not_ws (hchars x hx).1
  have hhead : ∀ X : List Char, headIsWs (c.url.toList ++ X) = false := by
    intro X
    cases hu : c.url.toList with
    | nil => exact absurd hu hune
    | cons x t =>
      rw [List.cons_append]
      exact (hchars x (by rw [hu]; simp)).1
  rcases hw : c.width with _ | w
  · rcases hq : c.density with _ | v
    · -- bare URL
      have hr : renderCandidate c = c.url.toList := by
        unfold renderCandidate
        rw [hw, hq]
        simp
      rw [hr]
      refine ⟨?_, hune, fun ch hc => (hchars ch hc).2, ?_⟩
      · unfold candOk
        rw [splitSp_no_space _ hunosp]
        exact hurlOk
      · cases hu : c.url.toList with
        | nil => exact absurd hu hune
        | cons x t => exact (hchars x (by rw [hu]; simp)).1
    · -- density only
      obtain ⟨q, rfl, hqp, f, hqd⟩ := hqpos v hq
      obtain ⟨hfl, hflchars⟩ := renderQ_valid q hqp f hqd
      have hqne : q ≠ 0 := ne_of_gt hqp
      have hr : renderCandidate c =
          c.url.toList ++ ' ' :: (renderQ q ++ ['x']) := by
        unfold renderCandidate
        rw [hw, hq]
        simp [hqne]
      have hdchars : ∀ ch ∈ renderQ q ++ ['x'],
          isWs ch = false ∧ ch ≠ ',' ∧ ch ≠ ' ' := by
        intro ch hc
        rcases List.mem_append.mp hc with h' | h'
        · rcases hflchars ch h' with hd | rfl
          · exact ⟨not_ws_of_isDig hd, ne_of_isDig hd (by decide),
              ne_of_isDig hd (by decide)⟩
          · exact ⟨by decide, by decide, by decide⟩
        · simp only [List.mem_singleton] at h'
          subst h'
          exact ⟨by decide, by decide, by decide⟩
      rw [hr]
      refine ⟨?_, by simp, ?_, ?_⟩
      · unfold candOk
        rw [splitSp_url_desc _ _ hunosp (fun ch hc => (hdchars ch hc).2.2)]
        dsimp only
        rw [hurlOk]
        unfold descOk
        rw [show ((renderQ q ++ ['x']) : List Char).getLast? = some 'x' from
          List.getLast?_concat _]
        rw [if_neg (by simp), if_pos rfl, List.dropLast_concat]
        simp [hfl]
      · intro ch hc
        rcases List.mem_append.mp hc with h' | h'
        · exact (hchars ch h').2
        · rcases List.mem_cons.mp h' with rfl | h''
          · decide
          · exact (hdchars ch h'').2.1
      · exact hhead _
  · -- width present; density must be none
    have hq : c.density = none := by
      rcases hexcl with h' | h'
      · rw [h'] at hw; exact absurd hw (by simp)
      · exact h'
    have hwp : 0 < w := hwpos w hw
    have hwne : w ≠ 0 := by omega
    have hr : renderCandidate c =
        c.url.toList ++ ' ' :: (intToChars w ++ ['w']) := by
      unfold renderCandidate
      rw [hw, hq]
      simp [hwne]
    have hwchars : ∀ ch ∈ intToChars w, isDig ch = true := by
      unfold intToChars
      rw [if_neg (by omega)]
      unfold natChars
      rw [if_neg (by simp only [ne_eq, Int.natAbs_eq_zero]; omega)]
      exact (natDigits_spec w.natAbs).2.1
    have hivt : validIntTok (intToChars w) = true := by
      unfold validIntTok
      simp only [Bool.and_eq_true, Bool.not_eq_true', List.isEmpty_eq_false,
        List.all_eq_true, bne_iff_ne, ne_eq]
      have hnane : w.natAbs ≠ 0 := by
        simp only [ne_eq, Int.natAbs_eq_zero]; omega
      obtain ⟨hval, hdig, hne⟩ := natDigits_spec w.natAbs
      have hic : intToChars w = natDigits w.natAbs := by
        unfold intToChars
        rw [if_neg (by omega)]
        unfold natChars
        rw [if_neg hnane]
      rw [hic]
      exact ⟨⟨hne hnane, hdig⟩, by rw [hval]; exact hnane⟩
    have hdchars : ∀ ch ∈ intToChars w ++ ['w'],
        isWs ch = false ∧ ch ≠ ',' ∧ ch ≠ ' ' := by
      intro ch hc
      rcases List.mem_append.mp hc with h' | h'
      · have hd := hwchars ch h'
        exact ⟨not_ws_of_isDig hd, ne_of_isDig hd (by decide),
          ne_of_isDig hd (by decide)⟩
      · simp only [List.mem_singleton] at h'
        subst h'
        exact ⟨by decide, by decide, by decide⟩
    rw [hr]
    refine ⟨?_, by simp, ?_, ?_⟩
    · unfold candOk
      rw [splitSp_url_desc _ _ hunosp (fun ch hc => (hdchars ch hc).2.2)]
      dsimp only
      rw [hurlOk]
      unfold descOk
      rw [show ((intToChars w ++ ['w']) : List Char).getLast? = some 'w' from
        List.getLast?_concat _]
      rw [if_pos rfl, List.dropLast_concat]
      simp [hivt]
    · intro ch hc
      rcases List.mem_append.mp hc with h' | h'
      · exact (hchars ch h').2
      · rcases List.mem_cons.mp h' with rfl | h''
        · decide
        · exact (hdchars ch h'').2.1
    · exact hhead _

theorem mapE_ok_of_all {α β : Type} (f : α → Except SrcsetError β)
    (P : β → Prop) (l : List α) (h : ∀ x ∈ l, ∃ y, f x = .ok y ∧ P y) :
    ∃ ys, mapE f l = .ok ys ∧ (∀ y ∈ ys, P y) ∧ ys.length = l.length := by
  induction l with
  | nil => exact ⟨[], rfl, by simp, rfl⟩
  | cons x rest ih =>
    obtain ⟨y, hy, hP⟩ := h x (by simp)
    obtain ⟨ys, hys, hPs, hlen⟩ := ih (fun x hx => h x (by simp [hx]))
    refine ⟨y :: ys, ?_, ?_, by simp [hlen]⟩
    · rw [mapE, hy, hys]
    · intro z hz
      rcases List.mem_cons.mp hz with rfl | hz'
      · exact hP
      · exact hPs z hz'

theorem dedupAdjAux_subset (prev : Candidate) (l : List Candidate) :
    ∀ x ∈ dedupAdjAux prev l, x ∈ l := by
  induction l generalizing prev with
  | nil => simp [dedupAdjAux]
  | cons y rest ih =>
    intro x hx
    rw [dedupAdjAux] at hx
    by_cases hy : y = prev
    · rw [if_pos hy] at hx
      exact List.mem_cons_of_mem y (ih y x hx)
    · rw [if_neg hy] at hx
      rcases List.mem_cons.mp hx with rfl | hx'
      · simp
      · exact List.mem_cons_of_mem y (ih y x hx')

theorem deepUnique_subset (l : List Candidate) :
    ∀ x ∈ deepUnique l, x ∈ l := by
  cases l with
  | nil => simp [deepUnique]
  | cons y rest =>
    intro x hx
    rw [deepUnique] at hx
    rcases List.mem_cons.mp hx with rfl | hx'
    · simp
    · exact List.mem_cons_of_mem y (dedupAdjAux_subset y rest x hx')

theorem deepUnique_ne_nil {l : List Candidate} (h : l ≠ []) :
    deepUnique l ≠ [] := by
  cases l with
  | nil => exact absurd rfl h
  | cons y rest => simp [deepUnique]

theorem dedupFirst_subset (seen : List (List Char)) (l : List (List Char)) :
    ∀ x ∈ dedupFirst seen l, x ∈ l := by
  induction l generalizing seen with
  | nil => simp [dedupFirst]
  | cons y rest ih =>
    intro x hx
    rw [dedupFirst] at hx
    by_cases hy : seen.contains y
    · rw [if_pos hy] at hx
      exact List.mem_cons_of_mem y (ih seen x hx)
    · rw [if_neg hy] at hx
      rcases List.mem_cons.mp hx with rfl | hx'
      · simp
      · exact List.mem_cons_of_mem y (ih (y :: seen) x hx')

theorem dedupFirst_nil_ne_nil {l : List (List Char)} (h : l ≠ []) :
    dedupFirst [] l ≠ [] := by
  cases l with
  | nil => exact absurd rfl h
  | cons y rest =>
    rw [dedupFirst]
    rw [if_neg (by simp)]
    simp

/-- The model-level round trip over the whole `", "`-separated sub-grammar:
`parseSrcset` succeeds and serialising the result is again in the grammar.
The claim C1 theorem (`srcset_roundtrip_safe`) restricts this to the numeric
domain on which the model's number printing is exactly the program's. -/
theorem srcset_roundtrip_model (s : String) (h : ValidSrcsetP s) :
    ∃ l out, parseSrcset s = .ok l ∧ stringifySrcset l = .ok out ∧
      ValidSrcsetP out := by
  obtain ⟨parts, hne, hall, hjoin⟩ := h
  have hconds : ∀ p ∈ parts,
      p ≠ [] ∧ (∀ c ∈ p, c ≠ ',') ∧ headIsWs p = false :=
    fun p hp => candOk_basic p (hall p hp)
  have hsplit : jsSplitCW s.toList = parts := by
    rw [hjoin]
    exact jsSplitCW_intercalate parts hne hconds
  obtain ⟨cands, hcands, hgood, hlen⟩ := mapE_ok_of_all parseCandidate
    GoodCand parts (fun p hp => parseCandidate_valid p (hall p hp))
  have hparse : parseSrcset s = .ok (deepUnique cands) := by
    unfold parseSrcset parseSrcsetL
    rw [hsplit, hcands]
  have hcne : cands ≠ [] := by
    intro h0
    rw [h0] at hlen
    cases parts with
    | nil => exact hne rfl
    | cons p ps => simp at hlen
  obtain ⟨rparts, hrparts, hrok, hrlen⟩ := mapE_ok_of_all stringifyCandidate
    (fun r => candOk r = true) (deepUnique cands)
    (fun c hc => by
      have hg := hgood c (deepUnique_subset cands c hc)
      have hr := renderCandidate_ok c hg
      refine ⟨renderCandidate c, ?_, hr.1⟩
      unfold stringifyCandidate
      rw [if_neg ?_]
      intro h0
      have : c.url.toList = [] := by rw [h0]; rfl
      exact hg.1 this)
  have hrne : rparts ≠ [] := by
    intro h0
    rw [h0] at hrlen
    have := deepUnique_ne_nil hcne
    cases hdu : deepUnique cands with
    | nil => exact this hdu
    | cons x xs => rw [hdu] at hrlen; simp at hrlen
  refine ⟨deepUnique cands,
    String.mk (List.intercalate [',', ' '] (dedupFirst [] rparts)),
    hparse, ?_, ?_⟩
  · unfold stringifySrcset
    rw [hrparts]
  · exact ⟨dedupFirst [] rparts, dedupFirst_nil_ne_nil hrne,
      fun p hp => hrok p (dedupFirst_subset [] rparts p hp), rfl⟩

/-- Claim C1 counterexample: the HTML grammar separates candidates with a
comma alone, so `"a.jpg 1x,b.jpg 2x"` is a syntactically valid srcset
string; but the source splits on `/,\s+/`, the comma without following
whitespace does not separate, the middle whitespace-delimited token becomes
the descriptor `1x,b.jpg`, and parse throws
`Invalid srcset descriptor: 1x,b.jpg` — `parse` does throw on a valid
input, refuting the claim as stated. -/
theorem comma_separated_srcset_throws :
    ValidSrcsetHTMLP "a.jpg 1x,b.jpg 2x" ∧
    parseSrcset "a.jpg 1x,b.jpg 2x" =
      .error (.invalidDescriptor "1x,b.jpg") :=
  ⟨⟨["a.jpg 1x".toList, "b.jpg 2x".toList], by decide, by decide, by decide⟩,
   by decide⟩

/-- The numeric domain on which the model's number printing coincides with
the program's, so that the model round trip speaks for the program: an
integral width below `2 ^ 53` (exact as a double, printed in full decimal),
and a finite density that is a decimal of at most 15 significant digits in
`[1e-6, 1e21)` (parsed to a double whose shortest round-trip representation
is its canonical decimal, printed in plain notation).  Outside this domain
the program prints exponent notation (`"1e+21"`, `"1e-7"`) or `Infinity`,
whose output tokens are not valid srcset syntax — the C1 amendment. -/
def SafeCand (c : Candidate) : Prop :=
  (∀ w, c.width = some w → w < 2 ^ 53) ∧
  (∀ v, c.density = some v → ∃ q : ℚ, v = .fin q ∧
    1 / 10 ^ 6 ≤ q ∧ q < 10 ^ 21 ∧
    ∃ (m : ℕ) (j : ℕ), (q * 10 ^ j : ℚ) = (m : ℚ) ∧ m < 10 ^ 15)

/-- Claim C1, amended: on the `", "`-separated sub-grammar (the full HTML
grammar allows bare-comma separation, on which parse throws — see the
counterexample), `parseSrcset` never throws; and when every parsed width is
below `2 ^ 53` and every parsed density is a decimal of at most 15
significant digits in `[1e-6, 1e21)` — the domain where JavaScript prints
numbers exactly as the model does — serialising the parse result succeeds
and yields a string of the same grammar.  Outside that numeric domain the
program emits exponent notation (`"a.jpg 1000000000000000000000w"` comes
back as `"a.jpg 1e+21w"`), which is not valid srcset syntax. -/
theorem srcset_roundtrip_safe (s : String) (h : ValidSrcsetP s) :
    (∃ l, parseSrcset s = .ok l) ∧
    ∀ l, parseSrcset s = .ok l → (∀ c ∈ l, SafeCand c) →
      ∃ out, stringifySrcset l = .ok out ∧ ValidSrcsetP out := by
  obtain ⟨l, out, hp, hs, hv⟩ := srcset_roundtrip_model s h
  refine ⟨⟨l, hp⟩, ?_⟩
  intro l2 hp2 _
  rw [hp] at hp2
  obtain rfl : l = l2 := by injection hp2
  exact ⟨out, hs, hv⟩

/-- Witness for `srcset_roundtrip_safe` at a concrete valid srcset string
with one width and one density candidate, both in the safe numeric
domain. -/
theorem srcset_roundtrip_safe_witness :
    (∃ l, parseSrcset "a.jpg 100w, b.jpg 1.5x" = .ok l) ∧
    ∃ out,
      stringifySrcset [{ url := "a.jpg", width := some 100 },
        { url := "b.jpg", density := some (.fin (3 / 2)) }] = .ok out ∧
      ValidSrcsetP out := by
  have h := srcset_roundtrip_safe "a.jpg 100w, b.jpg 1.5x"
    ⟨["a.jpg 100w".toList, "b.jpg 1.5x".toList], by decide, by decide,
      by decide⟩
  refine ⟨h.1, ?_⟩
  refine h.2 [{ url := "a.jpg", width := some 100 },
      { url := "b.jpg", density := some (.fin (3 / 2)) }] (by decide) ?_
  intro c hc
  rcases List.mem_cons.mp hc with rfl | hc2
  · refine ⟨?_, ?_⟩
    · intro w hw
      injection hw with hw
      rw [← hw]
      decide
    · intro v hv
      exact absurd hv (by simp)
  · rcases List.mem_cons.mp hc2 with rfl | hc3
    · refine ⟨?_, ?_⟩
      · intro w hw
        exact absurd hw (by simp)
      · intro v hv
        injection hv with hv
        refine ⟨3 / 2, hv.symm, by decide, by decide, 15, 1, by decide,
          by decide⟩
    · exact absurd hc3 (by simp)

/-! ## The Stylesheet Pruner (`tackleCSSGroup`) -/

/-- The rule tree walked by `tackleCSSGroup`, mirroring the CSSOM classes the
source dispatches on: `CSSStyleRule` (a selector-bearing leaf),
`CSSGroupingRule` (nested rules, e.g. a media query), `CSSImportRule`, and
any other rule kind (e.g. font-face), which the source leaves untouched. -/
inductive CSSRule where
  | styleRule (selector : String)
  | groupingRule (rules : List CSSRule)
  | importRule
  | otherRule

/-- Model of `selector.replace(/::?(before|after)/g, '')`: scan left to
right, at each position try the alternatives in the regular expression's
backtracking order (`::before`, `::after`, `:before`, `:after`), drop a match
and continue after it, otherwise keep the character. -/
def stripPseudoL : List Char → List Char
  | [] => []
  | ':' :: ':' :: 'b' :: 'e' :: 'f' :: 'o' :: 'r' :: 'e' :: rest =>
    stripPseudoL rest
  | ':' :: ':' :: 'a' :: 'f' :: 't' :: 'e' :: 'r' :: rest => stripPseudoL rest
  | ':' :: 'b' :: 'e' :: 'f' :: 'o' :: 'r' :: 'e' :: rest => stripPseudoL rest
  | ':' :: 'a' :: 'f' :: 't' :: 'e' :: 'r' :: rest => stripPseudoL rest
  | c :: rest => c :: stripPseudoL rest

/-- Pseudo-element stripping at the `String` boundary. -/
def stripPseudo (s : String) : String := String.mk (stripPseudoL s.toList)

mutual

/-- The effect of one loop iteration of the source's `tackleCSSGroup` on one
rule, as the list of rules (empty or singleton) that survive in place of it.
The document-query capability `q` models `document.querySelector`: `none`
models a thrown `SyntaxError` (caught by the source, which warns and keeps
the rule), `some b` tells whether some element matches.  A style rule is
marked for deletion exactly when the query on its pseudo-stripped selector
returns no match; a grouping rule is recursively pruned and deleted if no
children remain; an import rule is always deleted; other rules are kept. -/
def tackleRule (q : String → Option Bool) : CSSRule → List CSSRule
  | .styleRule sel =>
    match q (stripPseudo sel) with
    | some false => []
    | _ => [.styleRule sel]
  | .groupingRule rules =>
    let pruned := tackleCSSGroup q rules
    if pruned.isEmpty then [] else [.groupingRule pruned]
  | .importRule => []
  | .otherRule => [.otherRule]

/-- Model of the source's `tackleCSSGroup` on a rule list: each rule is
examined in order (children before the parent's own deletion decision), and
the deferred descending-index deletion of the source is equivalent to this
in-order filtering. -/
def tackleCSSGroup (q : String → Option Bool) : List CSSRule → List CSSRule
  | [] => []
  | rule :: rest => tackleRule q rule ++ tackleCSSGroup q rest

end

mutual

/-- No import rule and no childless grouping rule anywhere in the tree. -/
def ruleClean : CSSRule → Bool
  | .styleRule _ => true
  | .importRule => false
  | .otherRule => true
  | .groupingRule rules => !rules.isEmpty && rulesClean rules

/-- `ruleClean` on every rule of a list, at all depths. -/
def rulesClean : List CSSRule → Bool
  | [] => true
  | r :: rest => ruleClean r && rulesClean rest

end

/-- All style-rule selectors of a rule list, in depth-first document order. -/
def selectorsOf : List CSSRule → List String
  | [] => []
  | .styleRule sel :: rest => sel :: selectorsOf rest
  | .groupingRule rules :: rest => selectorsOf rules ++ selectorsOf rest
  | .importRule :: rest => selectorsOf rest
  | .otherRule :: rest => selectorsOf rest

theorem cssRule_sizeOf_pos (r : CSSRule) : 1 ≤ sizeOf r := by
  cases r <;> simp_arith

theorem rulesClean_append (a b : List CSSRule) :
    rulesClean (a ++ b) = (rulesClean a && rulesClean b) := by
  induction a with
  | nil => simp [rulesClean]
  | cons r rest ih =>
    rw [List.cons_append]
    rw [rulesClean, rulesClean]
    rw [ih, Bool.and_assoc]

theorem selectorsOf_append (a b : List CSSRule) :
    selectorsOf (a ++ b) = selectorsOf a ++ selectorsOf b := by
  induction a with
  | nil => simp [selectorsOf]
  | cons r rest ih =>
    cases r <;> rw [List.cons_append] <;> simp only [selectorsOf] <;>
      rw [ih] <;> simp

theorem tackle_clean (q : String → Option Bool) :
    ∀ n : ℕ, ∀ l : List CSSRule, sizeOf l ≤ n →
      rulesClean (tackleCSSGroup q l) = true := by
  intro n
  induction n with
  | zero =>
    intro l hl
    cases l with
    | nil => rfl
    | cons r rest =>
      exfalso
      have h1 := cssRule_sizeOf_pos r
      simp only [List.cons.sizeOf_spec] at hl
      omega
  | succ n ih =>
    intro l hl
    cases l with
    | nil => rfl
    | cons r rest =>
      have h1 := cssRule_sizeOf_pos r
      simp only [List.cons.sizeOf_spec] at hl
      have hrest : sizeOf rest ≤ n := by omega
      rw [tackleCSSGroup, rulesClean_append]
      simp only [Bool.and_eq_true]
      refine ⟨?_, ih rest hrest⟩
      cases r with
      | styleRule sel =>
        rw [tackleRule]
        rcases hq : q (stripPseudo sel) with _ | b
        · simp [rulesClean, ruleClean]
        · cases b
          · simp [rulesClean]
          · simp [rulesClean, ruleClean]
      | groupingRule rules =>
        have hrules : sizeOf rules ≤ n := by
          simp only [CSSRule.groupingRule.sizeOf_spec] at hl
          omega
        have hpr := ih rules hrules
        rw [tackleRule]
        by_cases hemp : (tackleCSSGroup q rules).isEmpty
        · simp [hemp, rulesClean]
        · have hemp' : (tackleCSSGroup q rules).isEmpty = false := by
            simpa using hemp
          simp only [hemp', Bool.false_eq_true, if_false, rulesClean,
            ruleClean, Bool.and_eq_true]
          exact ⟨⟨by simp [hemp'], hpr⟩, trivial⟩
      | importRule => simp [tackleRule, rulesClean]
      | otherRule => simp [tackleRule, rulesClean, ruleClean]

/-- Claim C4: after the Stylesheet Pruner runs, no import rule survives and
no grouping rule with zero remaining children survives, at any depth; in
particular a grouping rule (e.g. a media query) whose sole child style rule
matches nothing is removed together with its child. -/
theorem pruner_no_import_no_empty_group :
    (∀ (q : String → Option Bool) (rules : List CSSRule),
      rulesClean (tackleCSSGroup q rules) = true) ∧
    tackleCSSGroup (fun _ => some false)
      [CSSRule.groupingRule [CSSRule.styleRule ".never"]] = [] :=
  ⟨fun q rules => tackle_clean q (sizeOf rules) rules le_rfl,
    by simp [tackleCSSGroup, tackleRule]⟩

/-- Claim C5: the Stylesheet Pruner tests each style rule by its
pseudo-element-stripped selector; the surviving style rules (at all depths,
in order) are exactly those whose stripped selector does not definitely
match nothing — a selector on which the query capability throws (`none`) is
always kept, and a rule is deleted exactly when the query validly returns
"no match".  The second conjunct records the stripping on a concrete
selector. -/
theorem pruner_filters_by_stripped_selector :
    (∀ (q : String → Option Bool) (rules : List CSSRule),
      selectorsOf (tackleCSSGroup q rules) =
        (selectorsOf rules).filter
          (fun sel => !(q (stripPseudo sel) == some false))) ∧
    stripPseudo ".a::before .b:after" = ".a .b" := by
  constructor
  · intro q rules
    suffices h : ∀ n : ℕ, ∀ l : List CSSRule, sizeOf l ≤ n →
        selectorsOf (tackleCSSGroup q l) =
          (selectorsOf l).filter
            (fun sel => !(q (stripPseudo sel) == some false)) from
      h (sizeOf rules) rules le_rfl
    intro n
    induction n with
    | zero =>
      intro l hl
      cases l with
      | nil => simp [tackleCSSGroup, selectorsOf]
      | cons r rest =>
        exfalso
        have h1 := cssRule_sizeOf_pos r
        simp only [List.cons.sizeOf_spec] at hl
        omega
    | succ n ih =>
      intro l hl
      cases l with
      | nil => simp [tackleCSSGroup, selectorsOf]
      | cons r rest =>
        have h1 := cssRule_sizeOf_pos r
        simp only [List.cons.sizeOf_spec] at hl
        have hrest : sizeOf rest ≤ n := by omega
        rw [tackleCSSGroup, selectorsOf_append]
        cases r with
        | styleRule sel =>
          rw [tackleRule]
          rcases hq : q (stripPseudo sel) with _ | b
          · simp only [selectorsOf, List.filter_cons, hq]
            rw [ih rest hrest]
            simp
          · cases b
            · simp only [selectorsOf, List.filter_cons, hq]
              rw [ih rest hrest]
              simp
            · simp only [selectorsOf, List.filter_cons, hq]
              rw [ih rest hrest]
              simp
        | groupingRule rules' =>
          have hrules : sizeOf rules' ≤ n := by
            simp only [CSSRule.groupingRule.sizeOf_spec] at hl
            omega
          rw [tackleRule]
          simp only [selectorsOf, List.filter_append]
          rw [← ih rules' hrules, ← ih rest hrest]
          by_cases hemp : (tackleCSSGroup q rules').isEmpty
          · rw [if_pos hemp]
            have : tackleCSSGroup q rules' = [] := by
              simpa [List.isEmpty_iff] using hemp
            rw [this]
          · rw [if_neg hemp]
            simp [selectorsOf]
        | importRule =>
          rw [tackleRule]
          simp only [selectorsOf]
          exact ih rest hrest
        | otherRule =>
          rw [tackleRule]
          simp only [selectorsOf]
          rw [ih rest hrest]
          simp [selectorsOf]
  · rfl

/-! ## The Size Report Analyzer (`sizeReport`) -/

/-- A JavaScript number as the size report needs it: `NaN`, the two
infinities, or a finite value modelled as an exact rational. -/
inductive JSNum where
  | nan
  | inf
  | negInf
  | fin (q : ℚ)
deriving DecidableEq, Repr

/-- JavaScript truthiness of a number: `NaN` and `0` are falsy. -/
def jsTruthy : JSNum → Bool
  | .nan => false
  | .fin q => q != 0
  | _ => true

/-- JavaScript `+` on numbers: `NaN` is absorbing, opposite infinities give
`NaN`, an infinity absorbs finite values. -/
def jsAdd : JSNum → JSNum → JSNum
  | .nan, _ => .nan
  | _, .nan => .nan
  | .inf, .negInf => .nan
  | .negInf, .inf => .nan
  | .inf, _ => .inf
  | _, .inf => .inf
  | .negInf, _ => .negInf
  | _, .negInf => .negInf
  | .fin a, .fin b => .fin (a + b)

/-- Hexadecimal digit class. -/
def isHexDig (c : Char) : Bool :=
  isDig c || (97 ≤ c.toNat && c.toNat ≤ 102) || (65 ≤ c.toNat && c.toNat ≤ 70)

/-- Value of a hexadecimal digit character. -/
def hexDval (c : Char) : Nat :=
  if isDig c then dval c
  else if 97 ≤ c.toNat then c.toNat - 87
  else c.toNat - 55

/-- Value of a big-endian digit string in base `base` with digit value
function `dv`. -/
def baseVal (base : Nat) (dv : Char → Nat) (cs : List Char) : Nat :=
  cs.foldl (fun a c => a * base + dv c) 0

/-- Radix (hex/octal/binary) integer literals accepted by the `Number`
coercion (`0x…`, `0o…`, `0b…`, upper or lower case, no sign). -/
def radixLit (cs : List Char) : Option ℚ :=
  match cs with
  | '0' :: 'x' :: ds | '0' :: 'X' :: ds =>
    if !ds.isEmpty && ds.all isHexDig then some (baseVal 16 hexDval ds) else none
  | '0' :: 'o' :: ds | '0' :: 'O' :: ds =>
    if !ds.isEmpty && ds.all (fun c => 48 ≤ c.toNat && c.toNat ≤ 55)
    then some (baseVal 8 dval ds) else none
  | '0' :: 'b' :: ds | '0' :: 'B' :: ds =>
    if !ds.isEmpty && ds.all (fun c => c = '0' || c = '1')
    then some (baseVal 2 dval ds) else none
  | _ => none

/-- Unsigned decimal literal with optional exponent, requiring the WHOLE
input to be consumed (the `Number` coercion, unlike `parseFloat`, rejects
trailing garbage). -/
def decLitFull (cs : List Char) : Option ℚ :=
  let ip := cs.takeWhile isDig
  let r1 := cs.dropWhile isDig
  let fr : List Char × List Char :=
    match r1 with
    | c :: rest =>
      if c = '.' then (rest.takeWhile isDig, rest.dropWhile isDig)
      else ([], r1)
    | [] => ([], r1)
  if ip.isEmpty && fr.1.isEmpty then none
  else
    let mant := decValue ip fr.1
    match fr.2 with
    | [] => some mant
    | c :: rest =>
      if c = 'e' || c = 'E' then
        match rest with
        | [] => none
        | s :: ds =>
          if s = '-' then
            if !ds.isEmpty && ds.all isDig
            then some (mant * (10 : ℚ) ^ (-(digitsVal ds : ℤ))) else none
          else if s = '+' then
            if !ds.isEmpty && ds.all isDig
            then some (mant * (10 : ℚ) ^ digitsVal ds) else none
          else
            if (s :: ds).all isDig
            then some (mant * (10 : ℚ) ^ digitsVal (s :: ds)) else none
      else none

/-- Model of the JavaScript `Number(string)` coercion as applied to header
values: trim whitespace, the empty string is `0`, an optional sign applies
to `Infinity` or a full decimal literal, and an unsigned input may also be a
radix literal; everything else is `NaN`. -/
def jsStringToNumber (s : String) : JSNum :=
  match trimChars s.toList with
  | [] => .fin 0
  | c :: rest =>
    if c = '-' then
      if rest = "Infinity".toList then .negInf
      else
        match decLitFull rest with
        | some q => .fin (-q)
        | none => .nan
    else if c = '+' then
      if rest = "Infinity".toList then .inf
      else
        match decLitFull rest with
        | some q => .fin q
        | none => .nan
    else if c :: rest = "Infinity".toList then .inf
    else
      match radixLit (c :: rest) with
      | some q => .fin q
      | none =>
        match decLitFull (c :: rest) with
        | some q => .fin q
        | none => .nan

/-- `Number(headers['content-length'])`: a missing header is `undefined`,
which coerces to `NaN`. -/
def jsNumber : Option String → JSNum
  | none => .nan
  | some s => jsStringToNumber s

/-- JavaScript `a || b` on numbers: `b` when `a` is falsy. -/
def jsOr (a b : JSNum) : JSNum := if jsTruthy a then a else b

/-- A resource captured by the size-report render pass: its declared type,
its `content-length` response header (absent when the server did not declare
one), and its body bytes. -/
structure CapturedResource where
  resourceType : String
  contentLength : Option String
  body : List Nat
deriving DecidableEq, Repr

/-- The per-resource original size of the source:
`Number(entry.response.headers()['content-length']) || Infinity`. -/
def originalSizeOf (r : CapturedResource) : JSNum :=
  jsOr (jsNumber r.contentLength) .inf

/-- One entry of the size report (`SizeReportResource` in the source). -/
structure SizeReportResource where
  type : String
  originalSize : JSNum
  zopfliSize : Nat
  brotliSize : Nat
deriving DecidableEq, Repr

/-- The report structure of the source (`SizeReport`). -/
structure SizeReportOut where
  resources : List SizeReportResource
  combinedCSS : SizeReportResource
  combinedJS : SizeReportResource
deriving DecidableEq, Repr

/-- The resource types the report tracks (the source's `types` array). -/
def trackedTypes : List String := ["document", "stylesheet", "script"]

/-- JavaScript `Array.prototype.reduce((a, b) => a + b)` with no initial
value: throws a `TypeError` on the empty array (modelled as `none`),
otherwise folds from the first element. -/
def jsReduceAdd : List JSNum → Option JSNum
  | [] => none
  | h :: t => some (t.foldl jsAdd h)

/-- The per-type aggregate entry of `sizeReport`: filter the captured
resources by type, sum their declared sizes with an unseeded reduce, and
compress the concatenation of their bodies.  The compressors are the
black-box collaborators `z` (zopfli) and `b` (brotli). -/
def combinedEntry (z b : List Nat → Nat) (ty : String)
    (resources : List CapturedResource) : Except String SizeReportResource :=
  let typed := resources.filter (fun r => r.resourceType == ty)
  match jsReduceAdd (typed.map originalSizeOf) with
  | none => .error "Reduce of empty array with no initial value"
  | some total =>
    let combined := (typed.map (fun r => r.body)).flatten
    .ok ⟨ty, total, z combined, b combined⟩

/-- Model of the source's `sizeReport` after the captures are in: one entry
per tracked resource (in capture order), plus the stylesheet and script
aggregates; a thrown `TypeError` in an aggregate rejects the whole
`Promise.all` and hence the report. -/
def sizeReport (z b : List Nat → Nat) (resources : List CapturedResource) :
    Except String SizeReportOut :=
  let perRes :=
    (resources.filter (fun r => trackedTypes.contains r.resourceType)).map
      (fun r => SizeReportResource.mk r.resourceType (originalSizeOf r)
        (z r.body) (b r.body))
  match combinedEntry z b "stylesheet" resources,
      combinedEntry z b "script" resources with
  | .error e, _ => .error e
  | .ok _, .error e => .error e
  | .ok css, .ok js => .ok ⟨perRes, css, js⟩

theorem originalSizeOf_ne_nan (r : CapturedResource) :
    originalSizeOf r ≠ .nan := by
  unfold originalSizeOf jsOr
  by_cases ht : jsTruthy (jsNumber r.contentLength) = true
  · rw [if_pos ht]
    intro heq
    rw [heq] at ht
    exact absurd ht (by decide)
  · rw [if_neg ht]
    simp

theorem originalSizeOf_none {r : CapturedResource}
    (h : r.contentLength = none) : originalSizeOf r = .inf := by
  unfold originalSizeOf jsNumber
  rw [h]
  rfl

theorem foldl_jsAdd_inf (l : List JSNum)
    (hno : ∀ x ∈ l, x ≠ .nan ∧ x ≠ .negInf) : l.foldl jsAdd .inf = .inf := by
  induction l with
  | nil => rfl
  | cons x rest ih =>
    obtain ⟨h1, h2⟩ := hno x (by simp)
    have hx : jsAdd .inf x = .inf := by
      cases x with
      | nan => exact absurd rfl h1
      | negInf => exact absurd rfl h2
      | inf => rfl
      | fin q => rfl
    rw [List.foldl_cons, hx]
    exact ih (fun x hx => hno x (by simp [hx]))

theorem foldl_jsAdd_reaches_inf (l : List JSNum) :
    ∀ acc, (∀ x ∈ l, x ≠ .nan ∧ x ≠ .negInf) →
      (acc = .inf ∨ ∃ aq, acc = .fin aq) → (.inf ∈ l ∨ acc = .inf) →
      l.foldl jsAdd acc = .inf := by
  induction l with
  | nil =>
    intro acc _ _ hreach
    rcases hreach with h | h
    · exact absurd h (by simp)
    · exact h
  | cons x rest ih =>
    intro acc hno hacc hreach
    obtain ⟨hx1, hx2⟩ := hno x (by simp)
    rw [List.foldl_cons]
    rcases hacc with rfl | ⟨aq, rfl⟩
    · have hx : jsAdd .inf x = .inf := by
        cases x with
        | nan => exact absurd rfl hx1
        | negInf => exact absurd rfl hx2
        | inf => rfl
        | fin q => rfl
      rw [hx]
      exact ih .inf (fun y hy => hno y (by simp [hy])) (Or.inl rfl)
        (Or.inr rfl)
    · cases x with
      | nan => exact absurd rfl hx1
      | negInf => exact absurd rfl hx2
      | inf =>
        rw [show jsAdd (.fin aq) .inf = .inf from rfl]
        exact ih .inf (fun y hy => hno y (by simp [hy])) (Or.inl rfl)
          (Or.inr rfl)
      | fin xq =>
        rw [show jsAdd (.fin aq) (.fin xq) = .fin (aq + xq) from rfl]
        have hin : JSNum.inf ∈ rest := by
          rcases hreach with h | h
          · rcases List.mem_cons.mp h with h' | h'
            · exact absurd h'.symm (by simp)
            · exact h'
          · exact absurd h (by simp)
        exact ih _ (fun y hy => hno y (by simp [hy]))
          (Or.inr ⟨aq + xq, rfl⟩) (Or.inl hin)

theorem jsReduceAdd_inf (l : List JSNum)
    (hno : ∀ x ∈ l, x ≠ .nan ∧ x ≠ .negInf) (hinf : .inf ∈ l) :
    jsReduceAdd l = some .inf := by
  cases l with
  | nil => exact absurd hinf (by simp)
  | cons h t =>
    rw [jsReduceAdd]
    congr 1
    obtain ⟨hh1, hh2⟩ := hno h (by simp)
    cases h with
    | nan => exact absurd rfl hh1
    | negInf => exact absurd rfl hh2
    | inf =>
      exact foldl_jsAdd_inf t (fun x hx => hno x (by simp [hx]))
    | fin q =>
      have hin : JSNum.inf ∈ t := by
        rcases List.mem_cons.mp hinf with h' | h'
        · exact absurd h'.symm (by simp)
        · exact h'
      exact foldl_jsAdd_reaches_inf t (.fin q)
        (fun x hx => hno x (by simp [hx])) (Or.inr ⟨q, rfl⟩) (Or.inl hin)

theorem combinedEntry_inf (z b : List Nat → Nat) (ty : String)
    (rs : List CapturedResource)
    (hneg : ∀ r ∈ rs, originalSizeOf r ≠ .negInf)
    (hex : ∃ r ∈ rs, r.resourceType = ty ∧ originalSizeOf r = .inf) :
    combinedEntry z b ty rs = .ok ⟨ty, .inf,
      z ((rs.filter (fun r => r.resourceType == ty)).map
          (fun r => r.body)).flatten,
      b ((rs.filter (fun r => r.resourceType == ty)).map
          (fun r => r.body)).flatten⟩ := by
  obtain ⟨r, hr, hty, hinf⟩ := hex
  have hmem : r ∈ rs.filter (fun r => r.resourceType == ty) := by
    rw [List.mem_filter]
    exact ⟨hr, by simp [hty]⟩
  have hinfmem : JSNum.inf ∈
      (rs.filter (fun r => r.resourceType == ty)).map originalSizeOf := by
    rw [List.mem_map]
    exact ⟨r, hmem, hinf⟩
  have hno : ∀ x ∈ (rs.filter (fun r => r.resourceType == ty)).map
      originalSizeOf, x ≠ .nan ∧ x ≠ .negInf := by
    intro x hx
    rw [List.mem_map] at hx
    obtain ⟨r', hr', rfl⟩ := hx
    exact ⟨originalSizeOf_ne_nan r',
      hneg r' (List.mem_of_mem_filter hr')⟩
  unfold combinedEntry
  dsimp only
  rw [jsReduceAdd_inf _ hno hinfmem]

/-- Claim C7 counterexample: the claimed propagation of "unknown" into the
aggregate fails when a resource of the same type declares the header
`"-Infinity"`: `Number("-Infinity")` is the truthy `-Infinity`, and the
unseeded reduce computes `Infinity + (-Infinity) = NaN`, so the stylesheet
aggregate's `originalSize` is `NaN` — not the "unknown" `Infinity` the
claim promises for a capture with a missing-header stylesheet. -/
theorem negative_infinity_header_poisons_aggregate :
    originalSizeOf ⟨"stylesheet", none, []⟩ = .inf ∧
    originalSizeOf ⟨"stylesheet", some "-Infinity", []⟩ = .negInf ∧
    sizeReport (fun _ => 0) (fun _ => 0)
        [⟨"stylesheet", none, []⟩, ⟨"stylesheet", some "-Infinity", []⟩,
          ⟨"script", some "3", []⟩] =
      .ok ⟨[⟨"stylesheet", .inf, 0, 0⟩, ⟨"stylesheet", .negInf, 0, 0⟩,
          ⟨"script", .fin 3, 0, 0⟩],
        ⟨"stylesheet", .nan, 0, 0⟩, ⟨"script", .fin 3, 0, 0⟩⟩ ∧
    JSNum.nan ≠ JSNum.inf :=
  ⟨by decide, by decide, by decide, by decide⟩

/-- Claim C7, amended: in the size report, a tracked resource whose response
declares no `content-length` header gets `originalSize` "unknown"
(`Infinity`) rather than zero, and the stylesheet and script aggregates'
`originalSize` is "unknown" whenever any resource of that type has unknown
size — PROVIDED no declared header of the capture coerces to `-Infinity`:
such a header poisons the unseeded sum to `NaN`
(`Infinity + (-Infinity) = NaN`), and the aggregate then reports `NaN`
instead of "unknown" (see the counterexample).  Under that proviso the
unknown value propagates through the sum instead of being zero-filled. -/
theorem unknown_size_propagates (z b : List Nat → Nat)
    (rs : List CapturedResource) (rep : SizeReportOut)
    (hok : sizeReport z b rs = .ok rep) :
    (∀ i r, (rs.filter
        (fun r => trackedTypes.contains r.resourceType)).get? i = some r →
      r.contentLength = none →
      ∃ e, rep.resources.get? i = some e ∧ e.originalSize = .inf) ∧
    ((∀ r ∈ rs, originalSizeOf r ≠ .negInf) →
      ((∃ r ∈ rs, r.resourceType = "stylesheet" ∧ originalSizeOf r = .inf) →
        rep.combinedCSS.originalSize = .inf) ∧
      ((∃ r ∈ rs, r.resourceType = "script" ∧ originalSizeOf r = .inf) →
        rep.combinedJS.originalSize = .inf)) := by
  unfold sizeReport at hok
  rcases hcss : combinedEntry z b "stylesheet" rs with e | css <;>
    rw [hcss] at hok
  · exact absurd hok (by simp)
  rcases hjs : combinedEntry z b "script" rs with e | js <;>
    rw [hjs] at hok
  · exact absurd hok (by simp)
  obtain rfl : ({ resources := _, combinedCSS := css, combinedJS := js } :
      SizeReportOut) = rep := by injection hok
  constructor
  · intro i r hget hnone
    refine ⟨SizeReportResource.mk r.resourceType (originalSizeOf r)
      (z r.body) (b r.body), ?_, originalSizeOf_none hnone⟩
    show ((rs.filter _).map _).get? i = _
    rw [List.get?_map, hget]
    rfl
  · intro hneg
    constructor
    · intro hex
      have := combinedEntry_inf z b "stylesheet" rs hneg hex
      rw [this] at hcss
      injection hcss with h'
      rw [← h']
    · intro hex
      have := combinedEntry_inf z b "script" rs hneg hex
      rw [this] at hjs
      injection hjs with h'
      rw [← h']

/-- Witness for `unknown_size_propagates`: one stylesheet without a
`content-length` header and one script with one. -/
theorem unknown_size_propagates_witness :
    (∃ e, (SizeReportOut.mk
        [⟨"stylesheet", .inf, 0, 0⟩, ⟨"script", .fin 5, 0, 0⟩]
        ⟨"stylesheet", .inf, 0, 0⟩ ⟨"script", .fin 5, 0, 0⟩).resources.get? 0 =
          some e ∧ e.originalSize = .inf) ∧
    (SizeReportOut.mk
        [⟨"stylesheet", .inf, 0, 0⟩, ⟨"script", .fin 5, 0, 0⟩]
        ⟨"stylesheet", .inf, 0, 0⟩ ⟨"script", .fin 5, 0, 0⟩).combinedCSS.originalSize = .inf := by
  have h := unknown_size_propagates (fun _ => 0) (fun _ => 0)
    [⟨"stylesheet", none, []⟩, ⟨"script", some "5", []⟩]
    (SizeReportOut.mk
      [⟨"stylesheet", .inf, 0, 0⟩, ⟨"script", .fin 5, 0, 0⟩]
      ⟨"stylesheet", .inf, 0, 0⟩ ⟨"script", .fin 5, 0, 0⟩) (by decide)
  refine ⟨h.1 0 ⟨"stylesheet", none, []⟩ (by decide) rfl, ?_⟩
  exact (h.2 (by decide)).1 ⟨⟨"stylesheet", none, []⟩, by simp, rfl, by decide⟩

theorem combinedEntry_error (z b : List Nat → Nat) (ty : String)
    (rs : List CapturedResource)
    (hall : ∀ r ∈ rs, r.resourceType ≠ ty) :
    combinedEntry z b ty rs =
      .error "Reduce of empty array with no initial value" := by
  have hfil : rs.filter (fun r => r.resourceType == ty) = [] := by
    rw [List.filter_eq_nil_iff]
    intro a ha
    simp only [beq_iff_eq]
    exact hall a ha
  unfold combinedEntry
  dsimp only
  rw [hfil]
  rfl

theorem combinedEntry_cases (z b : List Nat → Nat) (ty : String)
    (rs : List CapturedResource) :
    combinedEntry z b ty rs =
        .error "Reduce of empty array with no initial value" ∨
      ∃ e, combinedEntry z b ty rs = .ok e := by
  rcases hred : jsReduceAdd
      ((rs.filter (fun r => r.resourceType == ty)).map originalSizeOf)
    with _ | v
  · left
    unfold combinedEntry
    dsimp only
    rw [hred]
  · right
    exact ⟨_, by unfold combinedEntry; dsimp only; rw [hred]⟩

theorem combinedEntry_ok_mem (z b : List Nat → Nat) (ty : String)
    (rs : List CapturedResource) {e : SizeReportResource}
    (hok : combinedEntry z b ty rs = .ok e) :
    ∃ r ∈ rs, r.resourceType = ty := by
  by_contra hcon
  push_neg at hcon
  rw [combinedEntry_error z b ty rs hcon] at hok
  exact Except.noConfusion hok

/-- Claim C8: the report only comes out when the captures hold at least one
stylesheet and at least one script resource — the per-type aggregate uses an
unseeded reduce over the filtered list, which throws on an empty filter, so
zero resources of an aggregated type rejects the whole report with the
`TypeError` message instead of producing an aggregate entry. -/
theorem report_requires_both_types :
    (∀ z b rs rep, sizeReport z b rs = .ok rep →
      (∃ r ∈ rs, r.resourceType = "stylesheet") ∧
      (∃ r ∈ rs, r.resourceType = "script")) ∧
    (∀ z b rs,
      ((∀ r ∈ rs, r.resourceType ≠ "stylesheet") ∨
        (∀ r ∈ rs, r.resourceType ≠ "script")) →
      sizeReport z b rs =
        .error "Reduce of empty array with no initial value") := by
  constructor
  · intro z b rs rep hok
    unfold sizeReport at hok
    rcases hcss : combinedEntry z b "stylesheet" rs with e | css <;>
      rw [hcss] at hok
    · exact absurd hok (by simp)
    rcases hjs : combinedEntry z b "script" rs with e | js <;>
      rw [hjs] at hok
    · exact absurd hok (by simp)
    exact ⟨combinedEntry_ok_mem z b _ rs hcss,
      combinedEntry_ok_mem z b _ rs hjs⟩
  · intro z b rs hdisj
    rcases hdisj with hall | hall
    · have herr := combinedEntry_error z b "stylesheet" rs hall
      unfold sizeReport
      rw [herr]
    · have herr := combinedEntry_error z b "script" rs hall
      rcases combinedEntry_cases z b "stylesheet" rs with hcss | ⟨e, hcss⟩
      · unfold sizeReport
        rw [hcss]
      · unfold sizeReport
        rw [hcss, herr]

/-- Witness for `report_requires_both_types`: a capture with one stylesheet
and one script yields a report, hence both existentials; a capture holding
only a document resource is rejected with the reduce `TypeError`. -/
theorem report_requires_both_types_witness :
    ((∃ r ∈ ([⟨"stylesheet", none, []⟩, ⟨"script", none, []⟩] :
        List CapturedResource), r.resourceType = "stylesheet") ∧
      (∃ r ∈ ([⟨"stylesheet", none, []⟩, ⟨"script", none, []⟩] :
        List CapturedResource), r.resourceType = "script")) ∧
    sizeReport (fun _ => 0) (fun _ => 0) [⟨"document", none, []⟩] =
      .error "Reduce of empty array with no initial value" := by
  constructor
  · exact report_requires_both_types.1 (fun _ => 0) (fun _ => 0) _
      ⟨[⟨"stylesheet", .inf, 0, 0⟩, ⟨"script", .inf, 0, 0⟩],
        ⟨"stylesheet", .inf, 0, 0⟩, ⟨"script", .inf, 0, 0⟩⟩ rfl
  · exact report_requires_both_types.2 (fun _ => 0) (fun _ => 0) _
      (Or.inl (by decide))

/-- Claim C9 counterexample: a declared `content-length` of `"-5"` is NOT
treated like an absent header — `Number("-5")` is the truthy value `-5`, so
the reported `originalSize` is the negative finite number `-5` (and it flows
into the aggregate), refuting "never a non-positive number". -/
theorem negative_content_length_not_unknown :
    originalSizeOf ⟨"stylesheet", some "-5", []⟩ = .fin (-5) ∧
    sizeReport (fun _ => 0) (fun _ => 0)
        [⟨"stylesheet", some "-5", []⟩, ⟨"script", some "3", []⟩] =
      .ok ⟨[⟨"stylesheet", .fin (-5), 0, 0⟩, ⟨"script", .fin 3, 0, 0⟩],
        ⟨"stylesheet", .fin (-5), 0, 0⟩, ⟨"script", .fin 3, 0, 0⟩⟩ :=
  ⟨by decide, by decide⟩

/-- Claim C9 amended: an absent header, a header coercing to `NaN`
(non-numeric) and a header coercing to `0` (such as `"0"`) are all reported
as unknown (`Infinity`), and a reported per-resource `originalSize` is never
the number zero; a negative numeric header, however, is reported as-is
(see the counterexample), so the claimed "never non-positive" fails. -/
theorem original_size_never_zero (r : CapturedResource) :
    (r.contentLength = none → originalSizeOf r = .inf) ∧
    (∀ s, r.contentLength = some s →
      (jsStringToNumber s = .nan ∨ jsStringToNumber s = .fin 0) →
      originalSizeOf r = .inf) ∧
    originalSizeOf r ≠ .fin 0 := by
  refine ⟨fun h => originalSizeOf_none h, ?_, ?_⟩
  · intro s hs hcoerce
    unfold originalSizeOf jsNumber
    rw [hs]
    dsimp only
    rcases hcoerce with h | h <;> rw [h] <;> rfl
  · intro h0
    unfold originalSizeOf jsOr at h0
    by_cases ht : jsTruthy (jsNumber r.contentLength) = true
    · rw [if_pos ht] at h0
      rw [h0] at ht
      exact absurd ht (by decide)
    · rw [if_neg ht] at h0
      exact absurd h0 (by simp)

/-- Witness for `original_size_never_zero` at concrete headers: absent,
`"0"` and the non-numeric `"abc"` all report `Infinity`, and the `"0"`
resource's reported size is not zero. -/
theorem original_size_never_zero_witness :
    originalSizeOf ⟨"stylesheet", none, []⟩ = .inf ∧
    originalSizeOf ⟨"stylesheet", some "0", []⟩ = .inf ∧
    originalSizeOf ⟨"stylesheet", some "abc", []⟩ = .inf ∧
    originalSizeOf ⟨"stylesheet", some "0", []⟩ ≠ .fin 0 :=
  ⟨(original_size_never_zero _).1 rfl,
   (original_size_never_zero _).2.1 "0" rfl (Or.inr (by decide)),
   (original_size_never_zero _).2.1 "abc" rfl (Or.inl (by decide)),
   (original_size_never_zero _).2.2⟩

/-- ASCII letter class (the regex class `[a-zA-Z]`). -/
def isAlphaC (c : Char) : Bool :=
  (65 ≤ c.toNat && c.toNat ≤ 90) || (97 ≤ c.toNat && c.toNat ≤ 122)

/-- Regex word-character class `\w`: letters, digits and underscore. -/
def isWordC (c : Char) : Bool := isAlphaC c || isDig c || c = '_'

/-- On a REVERSED character list: the characters before the first `'.'`
(i.e. the reversed suffix after the last dot of the original), `none` if no
dot occurs. -/
def afterLastDotAux : List Char → Option (List Char)
  | [] => none
  | c :: rest =>
    if c = '.' then some [] else (afterLastDotAux rest).map (fun l => c :: l)

/-- The shape test of the capture group of `/\.([a-zA-Z]\w{3,5})$/`: one
letter followed by 3 to 5 word characters, so 4 to 6 characters total. -/
def extCheck (suf : List Char) : Bool :=
  decide (4 ≤ suf.length) && decide (suf.length ≤ 6) &&
    (match suf with
     | [] => false
     | c :: rest => isAlphaC c && rest.all isWordC)

/-- Model of `(/\.([a-zA-Z]\w{3,5})$/.exec(pathname) || [])[1]`: since the
capture cannot contain a dot, the regex matches exactly when the suffix
after the LAST dot is a letter followed by 3 to 5 word characters. -/
def extFromPath (p : String) : Option (List Char) :=
  match afterLastDotAux p.toList.reverse with
  | none => none
  | some revSuf => if extCheck revSuf.reverse then some revSuf.reverse else none

/-- A captured resource as the rewriter sees it: its request URL, its
`content-type` response header, the pathname of its parsed URL, and its
body. -/
structure RRResource where
  url : String
  contentType : Option String
  pathname : String
  body : List Nat
deriving DecidableEq, Repr

/-- `getExtension(contentType) || regexFallback`: the mime table lookup (the
black-box collaborator `mimeExt`, `none` for a falsy result or an absent
header) wins, the pathname regex is the fallback. -/
def extOf (mimeExt : String → Option (List Char)) (r : RRResource) :
    Option (List Char) :=
  match r.contentType.bind mimeExt with
  | some e => some e
  | none => extFromPath r.pathname

/-- One char of the `escape-html` package: `&`, `"`, the apostrophe, `<` and
`>` become entities. -/
def escapeHTMLc (c : Char) : List Char :=
  if c = '&' then "&amp;".toList
  else if c = '"' then "&quot;".toList
  else if c.toNat = 39 then "&#39;".toList
  else if c = '<' then "&lt;".toList
  else if c = '>' then "&gt;".toList
  else [c]

/-- `escapeHTML` of the source, over character lists. -/
def escapeHTML (s : List Char) : List Char := (s.map escapeHTMLc).flatten

/-- Does `pat` occur at the head of `s`? -/
def subAt : List Char → List Char → Bool
  | [], _ => true
  | _ :: _, [] => false
  | p :: ps, c :: cs => p == c && subAt ps cs

/-- JavaScript `String.prototype.includes`: does `pat` occur anywhere in
`s`? -/
def containsSub (s pat : List Char) : Bool :=
  match s with
  | [] => pat.isEmpty
  | _ :: rest => subAt pat s || containsSub rest pat

/-- Strip `pat` from the head of `s`, returning the remainder. -/
def dropMatched : List Char → List Char → Option (List Char)
  | [], s => some s
  | _ :: _, [] => none
  | p :: ps, c :: cs => if p = c then dropMatched ps cs else none

/-- Fuel-driven body of `String.prototype.replaceAll` (left-to-right,
non-overlapping; an empty pattern inserts the replacement at every
position). `fuel = s.length` always suffices. -/
def replaceAllFuel (pat rep : List Char) : Nat → List Char → List Char
  | _, [] => if pat.isEmpty then rep else []
  | 0, s => s
  | fuel+1, c :: rest =>
    if pat.isEmpty then rep ++ c :: replaceAllFuel pat rep fuel rest
    else
      match dropMatched pat (c :: rest) with
      | some rem => rep ++ replaceAllFuel pat rep fuel rem
      | none => c :: replaceAllFuel pat rep fuel rest

/-- JavaScript `s.replaceAll(pat, rep)` over character lists. -/
def replaceAllL (s pat rep : List Char) : List Char :=
  replaceAllFuel pat rep s.length s

/-- The url-map entry for the resource at (filtered) index `i`: resolve the
extension, build `` `${i}.${ext}` ``, attempt the write (the collaborator
`writeOk`); an unresolvable extension or a failed write maps the URL to the
empty replacement. -/
def entryOf (mimeExt : String → Option (List Char))
    (writeOk : List Char → RRResource → Bool) (i : Nat) (r : RRResource) :
    List Char × List Char :=
  match extOf mimeExt r with
  | none => (r.url.toList, [])
  | some e =>
    if writeOk (natChars i ++ '.' :: e) r
    then (r.url.toList, natChars i ++ '.' :: e)
    else (r.url.toList, [])

/-- The indexed map over the filtered resources (the `map(async (resource,
i) => …)`). -/
def urlMapAux (mimeExt : String → Option (List Char))
    (writeOk : List Char → RRResource → Bool) :
    Nat → List RRResource → List (List Char × List Char)
  | _, [] => []
  | i, r :: rest =>
    entryOf mimeExt writeOk i r :: urlMapAux mimeExt writeOk (i+1) rest

/-- The source's `urlMap`: keep the resources whose URL (raw or
HTML-escaped) occurs in the optimised page source, then map with the index
in the FILTERED list. -/
def urlMapOf (mimeExt : String → Option (List Char))
    (writeOk : List Char → RRResource → Bool) (src : List Char)
    (rs : List RRResource) : List (List Char × List Char) :=
  urlMapAux mimeExt writeOk 0
    (rs.filter (fun r =>
      containsSub src r.url.toList || containsSub src (escapeHTML r.url.toList)))

/-- One pass of the rewrite loop: `if (!to) continue;` then replace the raw
and the HTML-escaped URL. -/
def applyEntry (s : List Char) (en : List Char × List Char) : List Char :=
  if en.2.isEmpty then s
  else replaceAllL (replaceAllL s en.1 en.2) (escapeHTML en.1) en.2

/-- The whole `for (const [from, to] of urlMap)` rewrite loop. -/
def applyUrlMap (s : List Char) (m : List (List Char × List Char)) :
    List Char := m.foldl applyEntry s

theorem urlMapAux_get (mimeExt : String → Option (List Char))
    (writeOk : List Char → RRResource → Bool) :
    ∀ (rs : List RRResource) (i j : Nat),
      (urlMapAux mimeExt writeOk i rs).get? j =
        (rs.get? j).map (fun r => entryOf mimeExt writeOk (i + j) r) := by
  intro rs
  induction rs with
  | nil => intro i j; rfl
  | cons r rest ih =>
    intro i j
    cases j with
    | zero => rfl
    | succ j =>
      show (urlMapAux mimeExt writeOk (i+1) rest).get? j = _
      rw [ih (i+1) j]
      have harith : (i+1) + j = i + (j+1) := by omega
      rw [harith]
      rfl

theorem entryOf_spec (mimeExt : String → Option (List Char))
    (writeOk : List Char → RRResource → Bool) (i : Nat) (r : RRResource) :
    ∃ t, entryOf mimeExt writeOk i r = (r.url.toList, t) ∧
      ((t = [] ∧ (extOf mimeExt r = none ∨
          ∃ e, extOf mimeExt r = some e ∧
            writeOk (natChars i ++ '.' :: e) r = false)) ∨
        (∃ e, extOf mimeExt r = some e ∧
          writeOk (natChars i ++ '.' :: e) r = true ∧
          t = natChars i ++ '.' :: e)) := by
  unfold entryOf
  rcases hext : extOf mimeExt r with _ | e
  · exact ⟨[], rfl, Or.inl ⟨rfl, Or.inl rfl⟩⟩
  · dsimp only
    cases hw : writeOk (natChars i ++ '.' :: e) r with
    | false => exact ⟨[], rfl, Or.inl ⟨rfl, Or.inr ⟨e, rfl, hw⟩⟩⟩
    | true => exact ⟨_, rfl, Or.inr ⟨e, rfl, hw, rfl⟩⟩

/-- Claim C6 counterexample: a referenced resource at pathname `/style.css`
with no usable content type is SKIPPED — `css` is a 3-character suffix, but
the fallback regex `/\.([a-zA-Z]\w\x7b3,5\x7d)$/` demands a letter plus 3 to
5 word characters (4 to 6 in all), so the spec's "3 to 6 alphanumeric
characters" promise fails: the map sends the URL to the empty replacement
and the original URL stays in the output. -/
theorem three_char_extension_skipped :
    extFromPath "/style.css" = none ∧
    urlMapOf (fun _ => none) (fun _ _ => true)
        "<img src=http://x/style.css>".toList
        [⟨"http://x/style.css", none, "/style.css", []⟩] =
      [("http://x/style.css".toList, [])] :=
  ⟨rfl, rfl⟩

/-- Claim C6 amended: the rewriter maps the resource at index `i` of the
FILTERED referenced list to its URL paired with either the empty replacement
(when neither the mime table nor the pathname yields an extension, or the
write fails) or the local filename `i.ext`; the pathname fallback only ever
produces a suffix of 4 to 6 characters starting with a letter (not 3); and
empty-replacement entries are skipped by the rewrite loop, leaving the
source unchanged. -/
theorem urlmap_indexed_filenames :
    (∀ (mimeExt : String → Option (List Char))
        (writeOk : List Char → RRResource → Bool) (src : List Char)
        (rs : List RRResource) (i : Nat) (r : RRResource),
      (rs.filter (fun r => containsSub src r.url.toList ||
          containsSub src (escapeHTML r.url.toList))).get? i = some r →
      ∃ t, (urlMapOf mimeExt writeOk src rs).get? i =
          some (r.url.toList, t) ∧
        ((t = [] ∧ (extOf mimeExt r = none ∨
            ∃ e, extOf mimeExt r = some e ∧
              writeOk (natChars i ++ '.' :: e) r = false)) ∨
          (∃ e, extOf mimeExt r = some e ∧
            writeOk (natChars i ++ '.' :: e) r = true ∧
            t = natChars i ++ '.' :: e))) ∧
    (∀ (p : String) (e : List Char), extFromPath p = some e →
      (4 ≤ e.length ∧ e.length ≤ 6) ∧
      ∃ c rest, e = c :: rest ∧ isAlphaC c = true ∧
        rest.all isWordC = true) ∧
    (∀ (s : List Char) (m : List (List Char × List Char)),
      (∀ en ∈ m, en.2 = []) → applyUrlMap s m = s) := by
  refine ⟨?_, ?_, ?_⟩
  · intro mimeExt writeOk src rs i r hget
    unfold urlMapOf
    rw [urlMapAux_get mimeExt writeOk _ 0 i, hget]
    dsimp only [Option.map]
    rw [Nat.zero_add]
    obtain ⟨t, heq, hdisj⟩ := entryOf_spec mimeExt writeOk i r
    exact ⟨t, by rw [heq], hdisj⟩
  · intro p e h
    unfold extFromPath at h
    rcases haux : afterLastDotAux p.toList.reverse with _ | revSuf <;>
      rw [haux] at h
    · exact absurd h (by simp)
    dsimp only at h
    by_cases hc : extCheck revSuf.reverse = true
    · rw [if_pos hc] at h
      injection h with he
      subst he
      rcases hsuf : revSuf.reverse with _ | ⟨c, rest⟩ <;> rw [hsuf] at hc
      · exact absurd hc (by decide)
      · unfold extCheck at hc
        dsimp only at hc
        rw [Bool.and_eq_true, Bool.and_eq_true, Bool.and_eq_true] at hc
        obtain ⟨⟨h4, h6⟩, hca, hcw⟩ := hc
        exact ⟨⟨of_decide_eq_true h4, of_decide_eq_true h6⟩,
          c, rest, rfl, hca, hcw⟩
    · rw [if_neg hc] at h
      exact absurd h (by simp)
  · intro s m
    induction m generalizing s with
    | nil => intro _; rfl
    | cons en rest ih =>
      intro hall
      show applyUrlMap (applyEntry s en) rest = s
      have hen : en.2 = [] := hall en (by simp)
      have hid : applyEntry s en = s := by
        unfold applyEntry
        rw [hen]
        rfl
      rw [hid]
      exact ih _ (fun x hx => hall x (by simp [hx]))

/-- Witness for `urlmap_indexed_filenames`: a referenced CSS resource whose
content type resolves gets filename `0.css`; `extFromPath "/style.html"`
produces the 4-character `html`; a map of only empty replacements leaves
`abc` unchanged. -/
theorem urlmap_indexed_filenames_witness :
    (∃ t, (urlMapOf (fun s => if s = "text/css" then some "css".toList else none)
        (fun _ _ => true) "<link href=http://x/a.css>".toList
        [⟨"http://x/a.css", some "text/css", "/a.css", []⟩]).get? 0 =
          some ("http://x/a.css".toList, t) ∧
        ((t = [] ∧ (extOf (fun s => if s = "text/css" then some "css".toList else none)
              ⟨"http://x/a.css", some "text/css", "/a.css", []⟩ = none ∨
            ∃ e, extOf (fun s => if s = "text/css" then some "css".toList else none)
                ⟨"http://x/a.css", some "text/css", "/a.css", []⟩ = some e ∧
              (fun (_ : List Char) (_ : RRResource) => true)
                (natChars 0 ++ '.' :: e)
                ⟨"http://x/a.css", some "text/css", "/a.css", []⟩ = false)) ∨
          (∃ e, extOf (fun s => if s = "text/css" then some "css".toList else none)
              ⟨"http://x/a.css", some "text/css", "/a.css", []⟩ = some e ∧
            (fun (_ : List Char) (_ : RRResource) => true)
              (natChars 0 ++ '.' :: e)
              ⟨"http://x/a.css", some "text/css", "/a.css", []⟩ = true ∧
            t = natChars 0 ++ '.' :: e))) ∧
    ((4 ≤ "html".toList.length ∧ "html".toList.length ≤ 6) ∧
      ∃ c rest, "html".toList = c :: rest ∧ isAlphaC c = true ∧
        rest.all isWordC = true) ∧
    applyUrlMap "abc".toList [("x".toList, [])] = "abc".toList :=
  ⟨urlmap_indexed_filenames.1
      (fun s => if s = "text/css" then some "css".toList else none)
      (fun _ _ => true) "<link href=http://x/a.css>".toList
      [⟨"http://x/a.css", some "text/css", "/a.css", []⟩] 0
      ⟨"http://x/a.css", some "text/css", "/a.css", []⟩ (by decide),
   urlmap_indexed_filenames.2.1 "/style.html" "html".toList (by decide),
   urlmap_indexed_filenames.2.2 "abc".toList [("x".toList, [])] (by decide)⟩

end F1Opt
